import Mathlib

/-!
# davfs: the relational-table driver (`plugin/mysql/mysql.go`)

A shallow embedding of the MySQL backed WebDAV file system of `mattn/davfs`.

* Go strings are lists of characters (`Str`).  Go indexes strings by bytes and SQL
  by characters; the two agree on ASCII names, and the model does not tell them
  apart.
* `path.Clean`, `path.Split`, the functions of `strings` and of `encoding/hex` are
  embedded from the Go standard library.
* The table `filesystem` is the list of its rows, in query order.
* The SQL statements of the driver are given their standard meaning: `=` compares
  names exactly, `like ... escape` is the usual pattern match with the wildcards
  `%` and `_`, `substr` is one-based, `||` concatenates, `$1` and `?` are the
  parameters, and the primary key on `name` rejects a second row with an existing
  name.  Statements do not fail for any other reason (the connection is reliable),
  and `Scan` does not fail.
* `int64` arithmetic on the offset of a handle wraps (`wrap64`); a run-time panic
  is the result `Err.panic`.
* `now()` and `time.Now()` are supplied by the caller as a number, one for each
  call of an operation.
-/

namespace Davfs

/-! ## Go library functions used by the driver -/

/-- Go strings, as lists of characters. -/
abbrev Str := List Char

/-- Go `strings.HasSuffix`. -/
def strings.HasSuffix (s suffix : Str) : Bool := suffix.isSuffixOf s

/-- Go `strings.HasPrefix`. -/
def strings.HasPrefix (s pre : Str) : Bool := pre.isPrefixOf s

/-- Go `strings.Trim(s, "/")`: the leading and trailing separators are removed. -/
def strings.Trim (s : Str) (cut : Char) : Str :=
  ((s.dropWhile (· = cut)).reverse.dropWhile (· = cut)).reverse

/-- Go `strings.TrimRight(s, "/")`. -/
def strings.TrimRight (s : Str) (cut : Char) : Str :=
  (s.reverse.dropWhile (· = cut)).reverse

/-- Go `strings.Split(s, "/")`, for a separator of one character: the pieces
between the separators, `[""]` for the empty string. -/
def strings.Split (sep : Char) : Str → List Str
  | [] => [[]]
  | c :: s =>
    if c = sep then [] :: strings.Split sep s
    else
      match strings.Split sep s with
      | [] => [[c]]
      | e :: es => (c :: e) :: es

/-- Go `strings.Replace(s, old, new, -1)` for `old` of one character. -/
def strings.Replace (s : Str) (old : Char) (new : Str) : Str :=
  s.flatMap (fun c => if c = old then new else [c])

/-- The test `strings.IndexRune(s, r) != -1` of Go. -/
def strings.ContainsRune (s : Str) (r : Char) : Bool := s.contains r

/-- The backtracking loop of the `..` case of `path.Clean`:
`out.w--; for out.w > dotdot && out.index(out.w) != '/' { out.w-- }`.
The output buffer is kept reversed (its head is the last byte written, its length
is `out.w`); the head of the argument is the byte at index `out.w` under test. -/
def path.backLoop (dotdot : Nat) : List Char → List Char
  | [] => []
  | c :: r => if r.length > dotdot ∧ c ≠ '/' then path.backLoop dotdot r else r

/-- The main loop of Go `path.Clean`, on the unread part of the path and the
reversed output buffer.  Every iteration consumes at least one byte, so a fuel of
the length of the path is enough. -/
def path.cleanLoop (rooted : Bool) : Nat → List Char → List Char → Nat → List Char
  | 0, _, out, _ => out
  | _ + 1, [], out, _ => out
  | fuel + 1, c :: rest, out, dotdot =>
    if c = '/' then
      -- empty path element
      path.cleanLoop rooted fuel rest out dotdot
    else if c = '.' ∧ (rest = [] ∨ rest.head? = some '/') then
      -- "." element
      path.cleanLoop rooted fuel rest out dotdot
    else if c = '.' ∧ rest.head? = some '.' ∧
        (rest.tail = [] ∨ rest.tail.head? = some '/') then
      -- ".." element: remove to last '/'
      if out.length > dotdot then
        path.cleanLoop rooted fuel rest.tail (path.backLoop dotdot out) dotdot
      else if !rooted then
        let out1 := if out.length > 0 then '/' :: out else out
        path.cleanLoop rooted fuel rest.tail ('.' :: '.' :: out1) (out1.length + 2)
      else
        path.cleanLoop rooted fuel rest.tail out dotdot
    else
      -- real path element: add slash if needed, then copy the element
      let out1 :=
        if (rooted = true ∧ out.length ≠ 1) ∨ (rooted = false ∧ out.length ≠ 0)
        then '/' :: out else out
      path.cleanLoop rooted fuel ((c :: rest).dropWhile (· ≠ '/'))
        (((c :: rest).takeWhile (· ≠ '/')).reverse ++ out1) dotdot

/-- Go `path.Clean`. -/
def path.Clean (p : Str) : Str :=
  match p with
  | [] => ['.']
  | c :: rest =>
    let out :=
      if c = '/' then path.cleanLoop true p.length rest ['/'] 1
      else path.cleanLoop false p.length p [] 0
    if out.length = 0 then ['.'] else out.reverse

/-- Go `path.Split`: the path is cut after its last separator into directory and
file name. -/
def path.Split (p : Str) : Str × Str :=
  ((p.reverse.dropWhile (· ≠ '/')).reverse, (p.reverse.takeWhile (· ≠ '/')).reverse)

/-- A byte. -/
abbrev Byte := Fin 256

/-- The table `hextable` of Go `encoding/hex`. -/
def hex.hextable (n : Nat) : Char :=
  "0123456789abcdef".toList.getD n '0'

/-- Go `hex.EncodeToString`. -/
def hex.EncodeToString : List Byte → Str
  | [] => []
  | b :: bs => hex.hextable (b.val / 16) :: hex.hextable (b.val % 16) :: hex.EncodeToString bs

/-- Go `hex.fromHexChar`. -/
def hex.fromHexChar (c : Char) : Option Nat :=
  if '0'.toNat ≤ c.toNat ∧ c.toNat ≤ '9'.toNat then some (c.toNat - '0'.toNat)
  else if 'a'.toNat ≤ c.toNat ∧ c.toNat ≤ 'f'.toNat then some (c.toNat - 'a'.toNat + 10)
  else if 'A'.toNat ≤ c.toNat ∧ c.toNat ≤ 'F'.toNat then some (c.toNat - 'A'.toNat + 10)
  else none

/-- Errors returned by the driver.  `hexError` stands for the two errors of
`hex.DecodeString`, `duplicateKey` for the error of the primary key, `panic` for a
run-time panic (slice bounds out of range). -/
inductive Err where
  | ErrInvalid
  | ErrExist
  | ErrNotExist
  | EOF
  | hexError
  | duplicateKey
  | panic
  deriving DecidableEq, Repr

deriving instance DecidableEq for Except

/-- Go `hex.DecodeString`: pairs of hexadecimal digits, an error on a character
that is no digit or on an odd length. -/
def hex.DecodeString : Str → Except Err (List Byte)
  | [] => .ok []
  | [_] => .error .hexError
  | a :: b :: s =>
    match hex.fromHexChar a, hex.fromHexChar b with
    | some x, some y =>
      match hex.DecodeString s with
      | .ok bs => .ok (Fin.ofNat (x * 16 + y) :: bs)
      | .error e => .error e
    | _, _ => .error .hexError

/-- Conversion to `int64`: the value modulo `2^64` in the signed range
(`9223372036854775808` is `2^63`). -/
def wrap64 (x : Int) : Int :=
  (x + 9223372036854775808) % 18446744073709551616 - 9223372036854775808

/-- Go `os.ModeDir`. -/
def ModeDir : Nat := 2147483648

/-- Go `FileMode.Perm`: the permission bits `0777`. -/
def Perm (m : Nat) : Nat := m &&& 511

/-- Go `FileMode.IsDir`. -/
def IsDir (m : Nat) : Bool := m &&& ModeDir != 0

/-- Go `os.O_CREATE` (Linux). -/
def O_CREATE : Nat := 64

/-- Go `os.O_EXCL` (Linux). -/
def O_EXCL : Nat := 128

/-! ## The table and its SQL statements -/

/-- A row of the table `filesystem` (`createSQL`). -/
structure Row where
  name : Str
  content : Str
  mode : Nat
  mod_time : Nat
  deriving DecidableEq, Repr

/-- The table `filesystem`: its rows in query order. -/
abbrev Table := List Row

/-- The row inserted by `insertSQL`. -/
def rootRow (now : Nat) : Row := ⟨['/'], [], 2147484159, now⟩

/-- The table after `CreateFS`: `createSQL` followed by `insertSQL`. -/
def CreateFS (now : Nat) : Table := [rootRow now]

/-- SQL `name like pattern escape '\'`: `%` matches any run of characters, `_` any
one character, the escape character makes the next character literal. -/
def sqlLike : List Char → List Char → Bool
  | [], s => s.isEmpty
  | p :: ps, s =>
    if p = '%' then s.tails.any (fun t => sqlLike ps t)
    else if p = '_' then
      match s with
      | [] => false
      | _ :: t => sqlLike ps t
    else if p = '\\' then
      match ps with
      | [] => decide (s = ['\\'])
      | q :: qs =>
        match s with
        | [] => false
        | c :: t => decide (c = q) && sqlLike qs t
    else
      match s with
      | [] => false
      | c :: t => decide (c = p) && sqlLike ps t

/-- SQL `substr(s, pos, len)`: `len` characters from the one-based position `pos`;
empty for `len < 1` or `pos = 0`, counted from the end for `pos < 0`. -/
def sqlSubstr (s : Str) (pos len : Int) : Str :=
  if len < 1 then []
  else if 0 < pos then (s.drop (pos - 1).toNat).take len.toNat
  else if pos = 0 then []
  else if (s.length : Int) < -pos then []
  else (s.drop (s.length - (-pos).toNat)).take len.toNat

/-- SQL `select ... from filesystem where name = ?`, first row. -/
def selectByName (db : Table) (name : Str) : Option Row :=
  db.find? (fun r => r.name = name)

/-- SQL `insert into filesystem(name, content, mode, mod_time) values(?, '', ?, now())`:
refused when the name is already a key.  The new row is put last; SQL does not fix
the place of a row in a query without `order by`. -/
def insertRow (db : Table) (name : Str) (mode now : Nat) : Except Err Table :=
  if db.any (fun r => r.name = name) then .error .duplicateKey
  else .ok (db ++ [⟨name, [], mode, now⟩])

/-- SQL `delete from filesystem where name = ?`. -/
def deleteByName (db : Table) (name : Str) : Table :=
  db.filter (fun r => !decide (r.name = name))

/-- SQL `delete from filesystem where name like ? escape '\'`. -/
def deleteLike (db : Table) (pattern : Str) : Table :=
  db.filter (fun r => !sqlLike pattern r.name)

/-- SQL `update filesystem set name = ? where name = ?`: refused when it would
give two rows the same key. -/
def updateName (db : Table) (newName oldName : Str) : Except Err Table :=
  if newName = oldName then .ok db
  else if db.any (fun r => r.name = oldName) && db.any (fun r => r.name = newName) then
    .error .duplicateKey
  else .ok (db.map (fun r => if r.name = oldName then { r with name := newName } else r))

/-- SQL `update filesystem set content = substr(content, 1, ?) || ? where name = ?`. -/
def updateContent (db : Table) (len : Int) (tail name : Str) : Table :=
  db.map (fun r =>
    if r.name = name then { r with content := sqlSubstr r.content 1 len ++ tail } else r)

/-! ## The driver -/

/-- The type `FileInfo` of the driver. -/
structure FileInfo where
  name : Str
  size : Int
  mode : Nat
  mod_time : Nat
  deriving DecidableEq, Repr

/-- The type `File` of the driver; `children` is `none` for Go `nil`.  The field
`fs` is the table, passed to every operation. -/
structure File where
  name : Str
  off : Int
  children : Option (List FileInfo)
  deriving DecidableEq, Repr

/-- The function `clearName` of the driver. -/
def clearName (name : Str) : Except Err Str :=
  let slashed := strings.HasSuffix name ['/']
  let name := path.Clean name
  let name := if !strings.HasSuffix name ['/'] && slashed then name ++ ['/'] else name
  if !strings.HasPrefix name ['/'] then .error .ErrInvalid else .ok name

/-- The two queries of `FileSystem.stat`: the row of the name, else, for a name
without trailing separator, the row of the name followed by the separator. -/
def statRow (db : Table) (name : Str) : Option Row :=
  match selectByName db name with
  | some r => some r
  | none =>
    if strings.HasSuffix name ['/'] then none
    else selectByName db (name ++ ['/'])

/-- The method `FileSystem.stat`.  `format(length(content)/2, 0)` is half the
length of the content rounded to an integer. -/
def stat (db : Table) (now : Nat) (name : Str) : Except Err FileInfo :=
  match clearName name with
  | .error e => .error e
  | .ok name =>
    match statRow db name with
    | none => .error .ErrNotExist
    | some r =>
      let base := (path.Split (path.Clean r.name)).2
      let size : Int := ((r.content.length + 1) / 2 : Nat)
      if base = [] then .ok ⟨['/'], size, r.mode, now⟩
      else .ok ⟨base, size, r.mode, r.mod_time⟩

/-- The loop of `FileSystem.Mkdir` over the elements of the name. -/
def mkdirLoop (now perm : Nat) : List Str → Str → Table → Option Err × Table
  | [], _, db => (none, db)
  | elem :: rest, base, db =>
    let base := base ++ elem ++ ['/']
    match stat db now base with
    | .ok _ => (none, db)
    | .error e =>
      if e ≠ .ErrNotExist then (some e, db)
      else
        match insertRow db base (Perm perm ||| ModeDir) now with
        | .error e => (some e, db)
        | .ok db1 => mkdirLoop now perm rest base db1

/-- The method `FileSystem.Mkdir`: the error returned (`none` for `nil`) and the
table afterwards. -/
def Mkdir (db : Table) (now : Nat) (name : Str) (perm : Nat) : Option Err × Table :=
  let name := if !strings.HasSuffix name ['/'] then name ++ ['/'] else name
  match clearName name with
  | .error e => (some e, db)
  | .ok name =>
    match stat db now name with
    | .ok _ => (some .ErrExist, db)
    | .error _ =>
      mkdirLoop now perm (strings.Split '/' (strings.Trim name '/')) ['/'] db

/-- The method `FileSystem.removeAll`. -/
def removeAll (db : Table) (now : Nat) (name : Str) : Option Err × Table :=
  match clearName name with
  | .error e => (some e, db)
  | .ok name =>
    match stat db now name with
    | .error e => (some e, db)
    | .ok fi =>
      if IsDir fi.mode then
        (none, deleteLike db (strings.Replace name '%' ['\\', '%'] ++ ['%']))
      else (none, deleteByName db name)

/-- The method `FileSystem.RemoveAll`. -/
def RemoveAll (db : Table) (now : Nat) (name : Str) : Option Err × Table :=
  removeAll db now name

/-- The method `FileSystem.OpenFile`: the handle or the error, and the table
afterwards. -/
def OpenFile (db : Table) (now : Nat) (name : Str) (flag perm : Nat) :
    Except Err File × Table :=
  match clearName name with
  | .error e => (.error e, db)
  | .ok name =>
    if flag &&& O_CREATE ≠ 0 then
      if strings.HasSuffix name ['/'] then (.error .ErrInvalid, db)
      else
        match stat db now (path.Split name).1 with
        | .error _ => (.error .ErrInvalid, db)
        | .ok _ =>
          let step : Option Err × Table :=
            match stat db now name with
            | .ok _ =>
              if flag &&& O_EXCL ≠ 0 then (some .ErrExist, db)
              else (none, (removeAll db now name).2)
            | .error _ => (none, db)
          match step with
          | (some e, db1) => (.error e, db1)
          | (none, db1) =>
            match insertRow db1 name (Perm perm) now with
            | .error e => (.error e, db1)
            | .ok db2 => (.ok ⟨name, 0, none⟩, db2)
    else
      match stat db now name with
      | .error _ => (.error .ErrNotExist, db)
      | .ok fi =>
        let name := if !strings.HasSuffix name ['/'] && IsDir fi.mode then name ++ ['/'] else name
        (.ok ⟨name, 0, none⟩, db)

/-- The method `FileSystem.Rename`. -/
def Rename (db : Table) (now : Nat) (oldName newName : Str) : Option Err × Table :=
  match clearName oldName with
  | .error e => (some e, db)
  | .ok oldName =>
    match clearName newName with
    | .error e => (some e, db)
    | .ok newName =>
      match stat db now oldName with
      | .error _ => (some .ErrExist, db)
      | .ok of =>
        let slash := IsDir of.mode && !strings.HasSuffix oldName ['/']
        let oldName := if slash then oldName ++ ['/'] else oldName
        let newName := if slash then newName ++ ['/'] else newName
        match stat db now newName with
        | .ok _ => (some .ErrExist, db)
        | .error _ =>
          match updateName db newName oldName with
          | .error e => (some e, db)
          | .ok db1 => (none, db1)

/-- The method `File.Write`: the count and error returned, the handle and the
table afterwards. -/
def File.Write (f : File) (db : Table) (p : List Byte) : (Nat × Option Err) × File × Table :=
  let db1 := updateContent db (wrap64 (f.off * 2)) (hex.EncodeToString p) f.name
  ((p.length, none), { f with off := wrap64 (f.off + p.length) }, db1)

/-- The method `File.Read` for a buffer of `len` bytes: the count and error
returned, the bytes that `copy` wrote to the front of the buffer, and the handle
afterwards. -/
def File.Read (f : File) (db : Table) (len : Nat) : (Nat × Option Err) × List Byte × File :=
  match selectByName db f.name with
  | none => ((0, some .ErrInvalid), [], f)
  | some r =>
    let content := sqlSubstr r.content (wrap64 (1 + wrap64 (f.off * 2))) (wrap64 (len * 2))
    if IsDir r.mode then ((0, some .ErrInvalid), [], f)
    else
      match hex.DecodeString content with
      | .error e => ((0, some e), [], f)
      | .ok b =>
        let f1 := { f with off := wrap64 (f.off + b.length) }
        if b.length = 0 then ((0, some .EOF), [], f1)
        else ((b.length, none), b.take len, f1)

/-- The loop of `File.Readdir` over the rows of its query: the children gathered
so far, and the error that stopped the loop, if any. -/
def readdirLoop (db : Table) (now : Nat) (fname : Str) :
    List Str → List FileInfo → Option Err × List FileInfo
  | [], acc => (none, acc)
  | name :: rest, acc =>
    if name.length < fname.length then (some .panic, acc)
    else
      let part := strings.TrimRight (name.drop fname.length) '/'
      if strings.ContainsRune part '/' then readdirLoop db now fname rest acc
      else
        match stat db now name with
        | .error e => (some e, acc)
        | .ok fi => readdirLoop db now fname rest (acc ++ [fi])

/-- The query of `File.Readdir`:
`select name from filesystem where name <> ? and name like ? escape '\'`. -/
def readdirQuery (db : Table) (fname : Str) : List Str :=
  (db.filter (fun r => !decide (r.name = fname) &&
    sqlLike (strings.Replace fname '%' ['\\', '%'] ++ ['%']) r.name)).map Row.name

/-- The first part of `File.Readdir`: the cached list of children, or the list
gathered from the table when none is cached (`f.children == nil`), with the error
that stopped the gathering, if any. -/
def File.loadChildren (f : File) (db : Table) (now : Nat) : Option Err × List FileInfo :=
  match f.children with
  | some cs => (none, cs)
  | none => readdirLoop db now f.name (readdirQuery db f.name) []

/-- The method `File.Readdir`: the entries or the error returned, and the handle
afterwards. -/
def File.Readdir (f : File) (db : Table) (now : Nat) (count : Int) :
    Except Err (List FileInfo) × File :=
  match f.loadChildren db now with
  | (some e, cs) => (.error e, { f with children := some cs })
  | (none, cs) =>
    let f := { f with children := some cs }
    let old := f.off
    if old ≥ (cs.length : Int) then
      if count > 0 then (.error .EOF, f) else (.ok [], f)
    else
      let off1 : Int :=
        if count > 0 then
          (if wrap64 (f.off + count) > (cs.length : Int) then (cs.length : Int)
           else wrap64 (f.off + count))
        else (cs.length : Int)
      let old : Int := if count > 0 then old else 0
      if old < 0 ∨ off1 < old then (.error .panic, { f with off := off1 })
      else (.ok ((cs.drop old.toNat).take (off1.toNat - old.toNat)), { f with off := off1 })

/-- The method `File.Seek`: the offset or the error returned, and the handle
afterwards. -/
def File.Seek (f : File) (db : Table) (now : Nat) (offset : Int) (whence : Int) :
    Except Err Int × File :=
  if whence = 0 then
    (.ok (wrap64 (0 + offset)), { f with off := wrap64 (0 + offset) })
  else if whence = 2 then
    match stat db now f.name with
    | .error e => (.error e, f)
    | .ok fi => (.ok (wrap64 (fi.size + offset)), { f with off := wrap64 (fi.size + offset) })
  else (.ok (wrap64 (f.off + offset)), { f with off := wrap64 (f.off + offset) })

/-! ## Canonical names -/

/-- A path element that `path.Clean` keeps in a rooted path: not empty, without
separator, neither `.` nor `..`. -/
def validElem (e : Str) : Prop := e ≠ [] ∧ '/' ∉ e ∧ e ≠ ['.'] ∧ e ≠ ['.', '.']

/-- The reversed output buffer of `path.Clean` holding the elements of a stack
(last element first), each after a separator. -/
def rbody : List Str → List Char
  | [] => []
  | e :: st => e.reverse ++ '/' :: rbody st

/-- The reversed output buffer of `path.Clean` on a rooted path. -/
def rbuf (st : List Str) : List Char := if st = [] then ['/'] else rbody st

/-- The elements of a path, each after a separator. -/
def flat (es : List Str) : Str := es.flatMap (fun e => '/' :: e)

/-! ## Sequences of calls -/

/-- A call of an operation that changes the table.  The handle of a `write` is any
value of the type `File`: the handles returned by `OpenFile`, moved by `Seek`,
`Read` and `Write`, are among them. -/
inductive Op where
  | mkdir (now : Nat) (name : Str) (perm : Nat)
  | openFile (now : Nat) (name : Str) (flag perm : Nat)
  | removeAll (now : Nat) (name : Str)
  | rename (now : Nat) (oldName newName : Str)
  | write (f : File) (p : List Byte)

/-- The table after a call. -/
def Op.apply (db : Table) : Op → Table
  | .mkdir now name perm => (Mkdir db now name perm).2
  | .openFile now name flag perm => (OpenFile db now name flag perm).2
  | .removeAll now name => (RemoveAll db now name).2
  | .rename now oldName newName => (Rename db now oldName newName).2
  | .write f p => (f.Write db p).2.2

/-- The table after a sequence of calls. -/
def run (db : Table) (ops : List Op) : Table := ops.foldl Op.apply db

/-- A call that is not `RemoveAll` or `Rename` of (a spelling of) the root. -/
def Op.sparesRoot : Op → Bool
  | .removeAll _ name => decide (clearName name ≠ .ok ['/'])
  | .rename _ oldName _ => decide (clearName oldName ≠ .ok ['/'])
  | _ => true

/-- The table has a row named `/`. -/
def hasRoot (db : Table) : Bool := db.any (fun r => r.name = ['/'])

/-- The results of `count` successive calls `Readdir(c)` on a handle, and the
handle afterwards. -/
def readdirCalls (db : Table) (now : Nat) (c : Int) :
    Nat → File → List (Except Err (List FileInfo)) × File
  | 0, f => ([], f)
  | k + 1, f =>
    let r := f.Readdir db now c
    let rs := readdirCalls db now c k r.2
    (r.1 :: rs.1, rs.2)

/-! ## Predicates of the claims -/

/-- Validity of a path element can be decided. -/
instance validElem.decidable (e : Str) : Decidable (validElem e) := by
  unfold validElem
  infer_instance

/-- The name of the parent directory of a name: the name with its last segment
removed, ending with the separator. -/
def parentName (name : Str) : Str := (path.Split (strings.TrimRight name '/')).1

/-- A table is parent-closed when it has the root row and, for every row other
than the root, the row of its parent directory. -/
def parentClosed (db : Table) : Bool :=
  hasRoot db &&
    db.all (fun r => decide (r.name = ['/']) || db.any (fun q => q.name = parentName r.name))

/-- The lowercase hexadecimal digits. -/
def hexDigits : List Char := "0123456789abcdef".toList

/-- A string of even length that consists of lowercase hexadecimal digits. -/
def isHexContent (s : Str) : Bool :=
  decide (s.length % 2 = 0) && s.all (fun c => hexDigits.contains c)

/-- Every row of the table has well-formed encoded content. -/
def hexTable (db : Table) : Bool := db.all (fun r => isHexContent r.content)

/-- The directory rows of the accumulated prefixes `/s1/`, `/s1/s2/`, ... of a
list of segments, with empty content and the mode of `Mkdir`. -/
def chainRows (now perm : Nat) (es : List Str) : List Row :=
  es.inits.tail.map (fun pre => ⟨flat pre ++ ['/'], [], Perm perm ||| ModeDir, now⟩)

/-- The entry that `stat` returns for a row, as the lookup rule describes it: the
size is half the length of the stored content (rounded; exact for an even
length), the mode is the stored mode, the name is `/` for the root row and the
last segment of the name for a row with a canonical name, with or without trailing
separator. -/
def describes (fi : FileInfo) (r : Row) : Prop :=
  fi.size = ((r.content.length + 1) / 2 : Nat) ∧
    (r.content.length % 2 = 0 → 2 * fi.size = r.content.length) ∧
    fi.mode = r.mode ∧
    (r.name = ['/'] → fi.name = ['/']) ∧
    ∀ (es : List Str) (e : Str), (∀ x ∈ es, validElem x) → validElem e →
      (r.name = flat (es ++ [e]) ∨ r.name = flat (es ++ [e]) ++ ['/']) →
      fi.name = e ∧ fi.mod_time = r.mod_time

/-- A measure of a name: two for every separator, and one more when the name does
not end with a separator (and is not empty). -/
def slashWeight : Str → Nat
  | [] => 0
  | c :: s => if c = '/' then slashWeight s + 2 else max (slashWeight s) 1

/-- The least measure of a name that a pattern of `like` can match: two for every
literal separator, and one more when a part that takes a character follows the
last of them. -/
def patWeight : List Char → Nat
  | [] => 0
  | p :: ps =>
    if p = '%' then patWeight ps
    else if p = '_' then max (patWeight ps) 1
    else if p = '\\' then
      match ps with
      | [] => 1
      | q :: qs => if q = '/' then patWeight qs + 2 else max (patWeight qs) 1
    else if p = '/' then patWeight ps + 2
    else max (patWeight ps) 1

/-! ## Theorems -/

/-! ### Canonical names -/

/-- The fuel of the loop of `path.Clean` is enough: with any fuel of at least the
length of the unread part the loop gives the same result. -/
theorem cleanLoop_fuel (rooted : Bool) (fuel1 : Nat) : ∀ (fuel2 : Nat) (rest out : List Char)
    (dd : Nat), rest.length ≤ fuel1 → rest.length ≤ fuel2 →
    path.cleanLoop rooted fuel1 rest out dd = path.cleanLoop rooted fuel2 rest out dd := by
  induction fuel1 with
  | zero =>
    intro fuel2 rest out dd h1 _
    have : rest = [] := List.length_eq_zero.mp (by omega)
    subst this
    cases fuel2 <;> simp [path.cleanLoop]
  | succ fuel1 ih =>
    intro fuel2 rest out dd h1 h2
    cases rest with
    | nil => cases fuel2 <;> simp [path.cleanLoop]
    | cons c rest =>
      cases fuel2 with
      | zero => simp at h2
      | succ fuel2 =>
        simp only [List.length_cons, Nat.add_le_add_iff_right] at h1 h2
        have ht : rest.tail.length ≤ rest.length := by simp
        simp only [path.cleanLoop]
        split
        · exact ih _ _ _ _ h1 h2
        · rename_i hc
          have hd : ((c :: rest).dropWhile (· ≠ '/')).length ≤ rest.length := by
            rw [List.dropWhile_cons, if_pos (by simpa using hc)]
            exact (List.dropWhile_sublist _).length_le
          split
          · exact ih _ _ _ _ h1 h2
          · split
            · split
              · exact ih _ _ _ _ (by omega) (by omega)
              · split
                · exact ih _ _ _ _ (by omega) (by omega)
                · exact ih _ _ _ _ (by omega) (by omega)
            · exact ih _ _ _ _ (by omega) (by omega)

/-- The embedding of `path.Clean` on cases of the test table of the Go library. -/
theorem Clean_examples :
    path.Clean "".toList = ".".toList ∧ path.Clean "abc".toList = "abc".toList ∧
    path.Clean "..".toList = "..".toList ∧ path.Clean "../../abc".toList = "../../abc".toList ∧
    path.Clean "/".toList = "/".toList ∧ path.Clean "abc/def/".toList = "abc/def".toList ∧
    path.Clean "//abc//".toList = "/abc".toList ∧ path.Clean "/./abc/def".toList = "/abc/def".toList ∧
    path.Clean "abc/def/../ghi/../jkl".toList = "abc/jkl".toList ∧
    path.Clean "abc/def/../..".toList = ".".toList ∧
    path.Clean "/abc/def/../../..".toList = "/".toList ∧
    path.Clean "abc/def/../../../ghi/jkl/../../../mno".toList = "../../mno".toList ∧
    path.Clean "abc/../../././../def".toList = "../../def".toList := by
  decide


theorem rbody_eq_nil {st : List Str} : rbody st = [] ↔ st = [] := by
  cases st <;> simp [rbody]

theorem rbuf_length_pos (st : List Str) : 0 < (rbuf st).length := by
  unfold rbuf
  split
  · simp
  · rename_i h
    cases st with
    | nil => exact absurd rfl h
    | cons e st => simp [rbody]

theorem rbuf_cons (e : Str) (st : List Str) : rbuf (e :: st) = e.reverse ++ '/' :: rbody st := by
  simp [rbuf, rbody]

theorem rbuf_length_eq_one {st : List Str} (h : ∀ e ∈ st, validElem e) :
    (rbuf st).length = 1 ↔ st = [] := by
  cases st with
  | nil => simp [rbuf]
  | cons e st =>
    have he := (h e (by simp)).1
    have : 0 < e.length := List.length_pos.mpr he
    simp [rbuf_cons]
    omega

theorem backLoop_append (x : List Char) (hx : x ≠ []) (hs : '/' ∉ x) (st : List Str) :
    path.backLoop 1 (x ++ '/' :: rbody st) = rbuf st := by
  induction x with
  | nil => exact absurd rfl hx
  | cons c x ih =>
    have hc : c ≠ '/' := fun h => hs (by simp [h])
    have hs' : '/' ∉ x := fun h => hs (by simp [h])
    cases x with
    | nil =>
      simp only [List.cons_append, List.nil_append, path.backLoop]
      by_cases hst : st = []
      · subst hst
        simp [rbody, rbuf]
      · have : rbody st ≠ [] := fun h => hst (rbody_eq_nil.mp h)
        have hl : 0 < (rbody st).length := List.length_pos.mpr this
        simp [hc, rbuf, hst]
        exact this
    | cons d x =>
      have := ih (by simp) hs'
      rw [← this]
      simp only [List.cons_append, path.backLoop]
      simp [hc]

theorem takeWhile_valid (c : Char) (rest : List Char) (hc : c ≠ '/')
    (h1 : ¬ (c = '.' ∧ (rest = [] ∨ rest.head? = some '/')))
    (h2 : ¬ (c = '.' ∧ rest.head? = some '.' ∧ (rest.tail = [] ∨ rest.tail.head? = some '/'))) :
    validElem ((c :: rest).takeWhile (· ≠ '/')) := by
  have hne : (c :: rest).takeWhile (· ≠ '/') = c :: rest.takeWhile (· ≠ '/') := by
    simp [List.takeWhile_cons, hc]
  rw [hne]
  refine ⟨by simp, ?_, ?_, ?_⟩
  · intro hmem
    rcases List.mem_cons.mp hmem with h | h
    · exact hc h.symm
    · have := List.mem_takeWhile_imp h
      simp at this
  · intro h
    simp only [List.cons.injEq] at h
    obtain ⟨hc1, ht⟩ := h
    apply h1
    refine ⟨hc1, ?_⟩
    cases rest with
    | nil => left; rfl
    | cons d rest =>
      right
      by_cases hd : d = '/'
      · simp [hd]
      · simp [List.takeWhile_cons, hd] at ht
  · intro h
    simp only [List.cons.injEq] at h
    obtain ⟨hc1, ht⟩ := h
    apply h2
    refine ⟨hc1, ?_⟩
    cases rest with
    | nil => simp at ht
    | cons d rest =>
      by_cases hd : d = '/'
      · simp [List.takeWhile_cons, hd] at ht
      · simp only [List.takeWhile_cons, hd, ne_eq, not_false_eq_true, decide_True, ite_true,
          List.cons.injEq] at ht
        obtain ⟨hd1, ht⟩ := ht
        refine ⟨by simp [hd1], ?_⟩
        cases rest with
        | nil => left; rfl
        | cons g rest =>
          right
          by_cases hg : g = '/'
          · simp [hg]
          · simp [List.takeWhile_cons, hg] at ht

/-- On a rooted path the loop of `path.Clean` keeps the buffer of the form
separator-element-...-separator-element with valid elements. -/
theorem cleanLoop_rooted (fuel : Nat) : ∀ (rest : List Char) (st : List Str),
    (∀ e ∈ st, validElem e) →
    ∃ st1, (∀ e ∈ st1, validElem e) ∧ path.cleanLoop true fuel rest (rbuf st) 1 = rbuf st1 := by
  induction fuel with
  | zero => intro rest st h; exact ⟨st, h, by simp [path.cleanLoop]⟩
  | succ fuel ih =>
    intro rest st h
    cases rest with
    | nil => exact ⟨st, h, by simp [path.cleanLoop]⟩
    | cons c rest =>
      simp only [path.cleanLoop]
      split
      · exact ih rest st h
      · rename_i hc
        split
        · exact ih rest st h
        · rename_i h1
          split
          · split
            · rename_i hlen
              cases st with
              | nil => simp [rbuf] at hlen
              | cons e st =>
                have he := h e (by simp)
                rw [rbuf_cons, backLoop_append e.reverse (by simpa using he.1)
                  (by simpa using he.2.1) st]
                exact ih _ st (fun e1 h1 => h e1 (by simp [h1]))
            · simp only [Bool.not_true, Bool.false_eq_true, ite_false]
              exact ih _ st h
          · rename_i h2
            have hv := takeWhile_valid c rest hc h1 h2
            have key : ((c :: rest).takeWhile (· ≠ '/')).reverse ++
                (if (true = true ∧ (rbuf st).length ≠ 1) ∨ (true = false ∧ (rbuf st).length ≠ 0)
                  then '/' :: rbuf st else rbuf st)
                = rbuf (((c :: rest).takeWhile (· ≠ '/')) :: st) := by
              rw [rbuf_cons]
              by_cases hst : st = []
              · subst hst; simp [rbuf, rbody]
              · have hl : (rbuf st).length ≠ 1 := fun hh => hst ((rbuf_length_eq_one h).mp hh)
                have hl2 : (rbody st).length ≠ 1 := by simpa [rbuf, hst] using hl
                simp [hl2, rbuf, hst]
            simp only [] at key ⊢
            rw [key]
            apply ih
            intro e1 he1
            rcases List.mem_cons.mp he1 with h3 | h3
            · rw [h3]; exact hv
            · exact h e1 h3

theorem takeWhile_elem (e rem : List Char) (he : '/' ∉ e) (hrem : rem = [] ∨ rem.head? = some '/') :
    (e ++ rem).takeWhile (· ≠ '/') = e ∧ (e ++ rem).dropWhile (· ≠ '/') = rem := by
  induction e with
  | nil =>
    rcases hrem with h | h
    · subst h; simp
    · cases rem with
      | nil => simp
      | cons d rem =>
        simp at h
        subst h
        simp [List.takeWhile_cons, List.dropWhile_cons]
  | cons c e ih =>
    have hc : c ≠ '/' := fun h => he (by simp [h])
    have he1 : '/' ∉ e := fun h => he (by simp [h])
    obtain ⟨i1, i2⟩ := ih he1
    constructor
    · have : (c :: e ++ rem).takeWhile (· ≠ '/') = c :: (e ++ rem).takeWhile (· ≠ '/') := by
        rw [List.cons_append, List.takeWhile_cons]; simp [hc]
      rw [this, i1]
    · have : (c :: e ++ rem).dropWhile (· ≠ '/') = (e ++ rem).dropWhile (· ≠ '/') := by
        rw [List.cons_append, List.dropWhile_cons]; simp [hc]
      rw [this, i2]

theorem flat_cons (e : Str) (es : List Str) : flat (e :: es) = '/' :: e ++ flat es := by
  simp [flat]

theorem flat_head (es : List Str) (t : List Char) (ht : t = [] ∨ t = ['/']) :
    flat es ++ t = [] ∨ (flat es ++ t).head? = some '/' := by
  cases es with
  | nil =>
    rcases ht with h | h <;> subst h <;> simp [flat]
  | cons e es => right; simp [flat_cons]

/-- On a canonical path the loop of `path.Clean` copies every element. -/
theorem cleanLoop_canon (es : List Str) : ∀ (t : List Char) (st : List Str) (fuel : Nat),
    (∀ e ∈ es, validElem e) → (∀ e ∈ st, validElem e) → (t = [] ∨ t = ['/']) →
    (flat es ++ t).length ≤ fuel →
    path.cleanLoop true fuel (flat es ++ t) (rbuf st) 1 = rbuf (es.reverse ++ st) := by
  induction es with
  | nil =>
    intro t st fuel _ _ ht hf
    rcases ht with h | h
    · subst h
      cases fuel <;> simp [flat, path.cleanLoop]
    · subst h
      cases fuel with
      | zero => simp [flat] at hf
      | succ fuel => cases fuel <;> simp [flat, path.cleanLoop]
  | cons e es ih =>
    intro t st fuel hes hst ht hf
    have hev := hes e (by simp)
    obtain ⟨hne, hns, hnd, hndd⟩ := hev
    rw [flat_cons] at hf ⊢
    cases e with
    | nil => exact absurd rfl hne
    | cons c e =>
      have hc : c ≠ '/' := fun h => hns (by simp [h])
      have he1 : '/' ∉ e := fun h => hns (by simp [h])
      have hrem := flat_head es t ht
      have hsplit := takeWhile_elem (c :: e) (flat es ++ t) hns hrem
      have h1 : ¬ (c = '.' ∧ (e ++ (flat es ++ t) = [] ∨
          (e ++ (flat es ++ t)).head? = some '/')) := by
        rintro ⟨hc1, h⟩
        apply hnd
        cases e with
        | nil => rw [hc1]
        | cons d e =>
          exfalso
          rcases h with h | h
          · simp at h
          · simp at h
            exact he1 (by simp [h])
      have h2 : ¬ (c = '.' ∧ (e ++ (flat es ++ t)).head? = some '.' ∧
          ((e ++ (flat es ++ t)).tail = [] ∨
            (e ++ (flat es ++ t)).tail.head? = some '/')) := by
        rintro ⟨hc1, hd1, h⟩
        cases e with
        | nil =>
          rcases hrem with hr | hr
          · rw [hr] at hd1; simp at hd1
          · rw [List.nil_append, hr] at hd1; simp at hd1
        | cons d e =>
          simp at hd1
          apply hndd
          cases e with
          | nil => rw [hc1, hd1]
          | cons g e =>
            exfalso
            rcases h with h | h
            · simp at h
            · simp at h
              exact he1 (by simp [h])
      have hform : '/' :: (c :: e) ++ flat es ++ t = '/' :: c :: (e ++ (flat es ++ t)) := by
        simp
      rw [hform] at hf ⊢
      rw [List.cons_append] at hsplit
      have hlen : (flat es ++ t).length ≤ (e ++ (flat es ++ t)).length := by simp
      generalize e ++ (flat es ++ t) = X at hf hsplit h1 h2 hlen ⊢
      cases fuel with
      | zero => simp at hf
      | succ fuel =>
        cases fuel with
        | zero => simp at hf
        | succ fuel =>
          simp only [path.cleanLoop, if_true, hc, if_false]
          rw [if_neg h1, if_neg h2, hsplit.1, hsplit.2]
          have key : (c :: e).reverse ++
              (if (true = true ∧ (rbuf st).length ≠ 1) ∨ (true = false ∧ (rbuf st).length ≠ 0)
                then '/' :: rbuf st else rbuf st) = rbuf ((c :: e) :: st) := by
            rw [rbuf_cons]
            by_cases hst1 : st = []
            · subst hst1; simp [rbuf, rbody]
            · have hl : (rbuf st).length ≠ 1 := fun hh => hst1 ((rbuf_length_eq_one hst).mp hh)
              have hl2 : (rbody st).length ≠ 1 := by simpa [rbuf, hst1] using hl
              simp [hl2, rbuf, hst1]
          simp only [] at key ⊢
          rw [key]
          have := ih t ((c :: e) :: st) fuel (fun x hx => hes x (by simp [hx]))
            (by
              intro x hx
              rcases List.mem_cons.mp hx with h3 | h3
              · rw [h3]; exact ⟨hne, hns, hnd, hndd⟩
              · exact hst x h3)
            ht (by simp at hf hlen ⊢; omega)
          rw [this]
          simp

theorem HasSuffix_slash (s : Str) :
    strings.HasSuffix s ['/'] = true ↔ s.reverse.head? = some '/' := by
  unfold strings.HasSuffix List.isSuffixOf
  cases s.reverse with
  | nil => simp [List.isPrefixOf]
  | cons c t =>
    simp only [List.isPrefixOf, List.head?_cons, Option.some.injEq, Bool.and_true, beq_iff_eq]
    exact eq_comm

theorem HasPrefix_slash (s : Str) :
    strings.HasPrefix s ['/'] = true ↔ s.head? = some '/' := by
  unfold strings.HasPrefix
  cases s with
  | nil => simp [List.isPrefixOf]
  | cons c t =>
    simp only [List.isPrefixOf, List.head?_cons, Option.some.injEq, Bool.and_true, beq_iff_eq]
    exact eq_comm

theorem rbody_reverse (st : List Str) : (rbody st).reverse = flat st.reverse := by
  induction st with
  | nil => simp [rbody, flat]
  | cons e st ih => simp [rbody, flat, ih] at *

theorem rbuf_head_ne_slash {st : List Str} (h : ∀ e ∈ st, validElem e) (hne : st ≠ []) :
    (rbuf st).head? ≠ some '/' := by
  cases st with
  | nil => exact absurd rfl hne
  | cons e st =>
    obtain ⟨h1, h2, _⟩ := h e (by simp)
    rw [rbuf_cons]
    cases hr : e.reverse with
    | nil => simp at hr; exact absurd hr h1
    | cons c t =>
      simp only [List.cons_append, List.head?_cons, ne_eq, Option.some.injEq]
      intro hc
      apply h2
      have : c ∈ e.reverse := by rw [hr]; simp
      rw [← hc]
      simpa using this

theorem rbuf_reverse_head (st : List Str) : (rbuf st).reverse.head? = some '/' := by
  unfold rbuf
  split
  · simp
  · rename_i h
    rw [rbody_reverse]
    cases hr : st.reverse with
    | nil => simp at hr; exact absurd hr h
    | cons e es => simp [flat]

/-- The result of `path.Clean` on a canonical path, also when a separator
follows it, is the canonical path. -/
theorem Clean_canon (es : List Str) (t : List Char) (hes : ∀ e ∈ es, validElem e)
    (ht : t = [] ∨ t = ['/']) (hne : flat es ++ t ≠ []) :
    path.Clean (flat es ++ t) = (rbuf es.reverse).reverse := by
  have hh := flat_head es t ht
  rcases hh with hh | hh
  · exact absurd hh hne
  · cases hX : flat es ++ t with
    | nil => exact absurd hX hne
    | cons c X =>
      rw [hX] at hh
      simp only [List.head?_cons, Option.some.injEq] at hh
      subst hh
      have key := cleanLoop_canon es t [] (X.length + 2) hes (by simp) ht (by rw [hX]; simp)
      rw [hX] at key
      simp only [path.cleanLoop, if_true, List.append_nil] at key
      have hr : rbuf ([] : List Str) = ['/'] := by simp [rbuf]
      rw [hr] at key
      simp only [path.Clean, if_true, List.length_cons]
      rw [key]
      have := rbuf_length_pos es.reverse
      rw [if_neg (by omega)]

/-- The result of `path.Clean` on a rooted path is a canonical path. -/
theorem Clean_rooted (rest : List Char) :
    ∃ st, (∀ e ∈ st, validElem e) ∧ path.Clean ('/' :: rest) = (rbuf st).reverse := by
  obtain ⟨st, hst, h⟩ := cleanLoop_rooted (rest.length + 1) rest [] (by simp)
  refine ⟨st, hst, ?_⟩
  have hr : rbuf ([] : List Str) = ['/'] := by simp [rbuf]
  rw [hr] at h
  simp only [path.Clean, if_true, List.length_cons]
  rw [h]
  have := rbuf_length_pos st
  rw [if_neg (by omega)]

theorem getLast_backLoop (dd : Nat) (out : List Char) (h : out.getLast? ≠ some '/') :
    (path.backLoop dd out).getLast? ≠ some '/' := by
  induction out with
  | nil => simp [path.backLoop]
  | cons c r ih =>
    have hr : r.getLast? ≠ some '/' := by
      cases r with
      | nil => simp
      | cons d r => simpa [List.getLast?_cons_cons] using h
    simp only [path.backLoop]
    split
    · exact ih hr
    · exact hr

/-- On a path that is not rooted the loop of `path.Clean` never puts a separator
at the front of the buffer. -/
theorem cleanLoop_unrooted (fuel : Nat) : ∀ (rest out : List Char) (dd : Nat),
    out.getLast? ≠ some '/' → (path.cleanLoop false fuel rest out dd).getLast? ≠ some '/' := by
  induction fuel with
  | zero => intro rest out dd h; simpa [path.cleanLoop] using h
  | succ fuel ih =>
    intro rest out dd h
    cases rest with
    | nil => simpa [path.cleanLoop] using h
    | cons c rest =>
      simp only [path.cleanLoop]
      split
      · exact ih _ _ _ h
      · rename_i hc
        split
        · exact ih _ _ _ h
        · split
          · split
            · exact ih _ _ _ (getLast_backLoop dd out h)
            · simp only [Bool.not_false, if_true]
              apply ih
              cases out with
              | nil => simp
              | cons d out => simpa [List.getLast?_cons_cons] using h
          · apply ih
            have hne : (c :: rest).takeWhile (· ≠ '/') = c :: rest.takeWhile (· ≠ '/') := by
              rw [List.takeWhile_cons]; simp [hc]
            rw [hne]
            cases out with
            | nil =>
              simp [List.getLast?_append, hc]
            | cons d out =>
              simp only [List.length_cons, ne_eq, Nat.add_one_ne_zero, not_false_eq_true,
                and_true, Bool.true_eq_false, false_and, false_or, if_true, true_and, or_true]
              rw [List.getLast?_append]
              simpa [List.getLast?_cons_cons] using h

theorem Clean_unrooted (c : Char) (rest : List Char) (hc : c ≠ '/') :
    ∃ d t, path.Clean (c :: rest) = d :: t ∧ d ≠ '/' := by
  simp only [path.Clean, hc, if_false]
  split
  · exact ⟨'.', [], rfl, by decide⟩
  · rename_i hlen
    have h := cleanLoop_unrooted (c :: rest).length (c :: rest) [] 0 (by simp)
    rw [← List.head?_reverse] at h
    cases hr : (path.cleanLoop false (c :: rest).length (c :: rest) [] 0).reverse with
    | nil =>
      have h1 := congrArg List.length hr
      simp only [List.length_reverse, List.length_nil] at h1
      exact absurd h1 hlen
    | cons d t =>
      rw [hr] at h
      exact ⟨d, t, rfl, by simpa using h⟩

/-- The two tests of `clearName`, spelled out. -/
theorem clearName_ok_iff (p r : Str) :
    clearName p = .ok r ↔
      ∃ n, (n = path.Clean p ∨ (n = path.Clean p ++ ['/'] ∧
          strings.HasSuffix (path.Clean p) ['/'] = false ∧ strings.HasSuffix p ['/'] = true)) ∧
        ((strings.HasSuffix (path.Clean p) ['/'] = false ∧ strings.HasSuffix p ['/'] = true) →
          n = path.Clean p ++ ['/']) ∧
        strings.HasPrefix n ['/'] = true ∧ r = n := by
  unfold clearName
  dsimp only
  by_cases hcond : (!strings.HasSuffix (path.Clean p) ['/'] && strings.HasSuffix p ['/']) = true
  · rw [if_pos hcond]
    have hc2 : strings.HasSuffix (path.Clean p) ['/'] = false ∧ strings.HasSuffix p ['/'] = true := by
      simpa using hcond
    by_cases hP : strings.HasPrefix (path.Clean p ++ ['/']) ['/'] = true
    · rw [if_neg (by simp [hP])]
      constructor
      · intro h
        refine ⟨_, Or.inr ⟨rfl, hc2⟩, fun _ => rfl, hP, ?_⟩
        simpa [eq_comm] using h
      · rintro ⟨n, _, hn, _, hr⟩
        rw [hr, hn hc2]
    · rw [if_pos (by simp [hP])]
      constructor
      · intro h; exact absurd h (by simp)
      · rintro ⟨n, _, hn, hp, _⟩
        rw [hn hc2] at hp
        exact absurd hp hP
  · rw [if_neg hcond]
    have hc2 : ¬ (strings.HasSuffix (path.Clean p) ['/'] = false ∧
        strings.HasSuffix p ['/'] = true) := by
      simpa using hcond
    by_cases hP : strings.HasPrefix (path.Clean p) ['/'] = true
    · rw [if_neg (by simp [hP])]
      constructor
      · intro h
        refine ⟨_, Or.inl rfl, fun hh => absurd hh hc2, hP, ?_⟩
        simpa [eq_comm] using h
      · rintro ⟨n, hn, _, _, hr⟩
        rcases hn with hn | ⟨_, hn⟩
        · rw [hr, hn]
        · exact absurd hn hc2
    · rw [if_pos (by simp [hP])]
      constructor
      · intro h; exact absurd h (by simp)
      · rintro ⟨n, hn, _, hp, _⟩
        rcases hn with hn | ⟨_, hn⟩
        · rw [hn] at hp; exact absurd hp hP
        · exact absurd hn hc2

theorem HasSuffix_canon {st : List Str} (h : ∀ e ∈ st, validElem e) (hne : st ≠ []) :
    strings.HasSuffix (rbuf st).reverse ['/'] = false := by
  rw [Bool.eq_false_iff]
  intro hh
  rw [HasSuffix_slash, List.reverse_reverse] at hh
  exact rbuf_head_ne_slash h hne hh

theorem canon_eq_flat {st : List Str} (hne : st ≠ []) :
    (rbuf st).reverse = flat st.reverse := by
  simp [rbuf, hne, rbody_reverse]

theorem clearName_canon {st : List Str} (h : ∀ e ∈ st, validElem e) :
    clearName (rbuf st).reverse = .ok (rbuf st).reverse := by
  by_cases hne : st = []
  · subst hne; decide
  · have hC : path.Clean (rbuf st).reverse = (rbuf st).reverse := by
      have := Clean_canon st.reverse [] (by simpa using h) (Or.inl rfl)
        (by
          rw [List.append_nil, ← canon_eq_flat hne]
          have := rbuf_length_pos st
          intro h0
          have h1 := congrArg List.length h0
          simp only [List.length_reverse, List.length_nil] at h1
          omega)
      rw [List.append_nil, ← canon_eq_flat hne, List.reverse_reverse] at this
      exact this
    have hS := HasSuffix_canon h hne
    have hP : strings.HasPrefix (rbuf st).reverse ['/'] = true :=
      (HasPrefix_slash _).mpr (rbuf_reverse_head st)
    simp [clearName, hC, hS, hP]

theorem clearName_canon_slash {st : List Str} (h : ∀ e ∈ st, validElem e) (hne : st ≠ []) :
    clearName ((rbuf st).reverse ++ ['/']) = .ok ((rbuf st).reverse ++ ['/']) := by
  have hC : path.Clean ((rbuf st).reverse ++ ['/']) = (rbuf st).reverse := by
    have := Clean_canon st.reverse ['/'] (by simpa using h) (Or.inr rfl) (by simp)
    rw [← canon_eq_flat hne, List.reverse_reverse] at this
    exact this
  have hS := HasSuffix_canon h hne
  have hS2 : strings.HasSuffix ((rbuf st).reverse ++ ['/']) ['/'] = true := by
    rw [HasSuffix_slash]; simp
  have hP : strings.HasPrefix ((rbuf st).reverse ++ ['/']) ['/'] = true := by
    rw [HasPrefix_slash]
    have := rbuf_reverse_head st
    cases hr : (rbuf st).reverse with
    | nil => rw [hr] at this; simp at this
    | cons c t => rw [hr] at this; simpa using this
  simp [clearName, hC, hS, hS2, hP]

/-- The results of `clearName` are the canonical paths, with or without a trailing
separator. -/
theorem clearName_ok_form (p r : Str) (h : clearName p = .ok r) :
    ∃ st, (∀ e ∈ st, validElem e) ∧
      (r = (rbuf st).reverse ∨ (st ≠ [] ∧ r = (rbuf st).reverse ++ ['/'])) := by
  obtain ⟨n, hn, _, hp, hr⟩ := (clearName_ok_iff p r).mp h
  subst hr
  cases p with
  | nil =>
    exfalso
    rcases hn with hn | ⟨_, _, hn⟩
    · rw [hn] at hp; simp [path.Clean, strings.HasPrefix] at hp
    · simp [strings.HasSuffix] at hn
  | cons c rest =>
    by_cases hc : c = '/'
    · subst hc
      obtain ⟨st, hst, hC⟩ := Clean_rooted rest
      refine ⟨st, hst, ?_⟩
      rw [hC] at hn
      rcases hn with hn | ⟨hn, hs, _⟩
      · left; exact hn
      · right
        refine ⟨?_, hn⟩
        intro hnil
        subst hnil
        exact absurd hs (by decide)
    · exfalso
      obtain ⟨d, t, hdt, hd⟩ := Clean_unrooted c rest hc
      rw [hdt] at hn
      rw [HasPrefix_slash] at hp
      rcases hn with hn | ⟨hn, _⟩
      · rw [hn] at hp; simp at hp; exact hd hp
      · rw [hn] at hp; simp at hp; exact hd hp

/-- Canonicalisation is idempotent. -/
theorem clearName_idem (p r : Str) (h : clearName p = .ok r) : clearName r = .ok r := by
  obtain ⟨st, hst, hr | ⟨hne, hr⟩⟩ := clearName_ok_form p r h
  · rw [hr]; exact clearName_canon hst
  · rw [hr]; exact clearName_canon_slash hst hne


/-! ### The root row -/

theorem hasRoot_iff (db : Table) : hasRoot db = true ↔ ∃ r ∈ db, r.name = ['/'] := by
  simp [hasRoot]

theorem hasRoot_insertRow {db db1 : Table} {name : Str} {mode now : Nat}
    (h : insertRow db name mode now = .ok db1) (hr : hasRoot db = true) : hasRoot db1 = true := by
  unfold insertRow at h
  split at h
  · exact absurd h (by simp)
  · simp only [Except.ok.injEq] at h
    subst h
    simp only [hasRoot, List.any_append, Bool.or_eq_true] at hr ⊢
    exact Or.inl hr

theorem hasRoot_mkdirLoop (now perm : Nat) (elems : List Str) : ∀ (base : Str) (db : Table),
    hasRoot db = true → hasRoot (mkdirLoop now perm elems base db).2 = true := by
  induction elems with
  | nil => intro base db h; simpa [mkdirLoop] using h
  | cons e elems ih =>
    intro base db h
    simp only [mkdirLoop]
    split
    · exact h
    · split
      · exact h
      · split
        · exact h
        · rename_i db1 hins
          exact ih _ _ (hasRoot_insertRow hins h)

theorem hasRoot_Mkdir (db : Table) (now : Nat) (name : Str) (perm : Nat)
    (h : hasRoot db = true) : hasRoot (Mkdir db now name perm).2 = true := by
  unfold Mkdir
  dsimp only
  split
  · exact h
  · split
    · exact h
    · exact hasRoot_mkdirLoop _ _ _ _ _ h

theorem sqlLike_nil (p : Char) (ps : List Char) (hp : p ≠ '%') : sqlLike (p :: ps) [] = false := by
  unfold sqlLike
  rw [if_neg hp]
  split
  · rfl
  · split
    · split
      · simp
      · rfl
    · rfl

/-- The pattern of `removeAll` for a canonical name other than the root does not
match the name of the root. -/
theorem sqlLike_root (c : Char) (rest : List Char) :
    sqlLike (strings.Replace ('/' :: c :: rest) '%' ['\\', '%'] ++ ['%']) ['/'] = false := by
  have h1 : strings.Replace ('/' :: c :: rest) '%' ['\\', '%'] =
      '/' :: ((if c = '%' then ['\\', '%'] else [c]) ++ strings.Replace rest '%' ['\\', '%']) := by
    simp [strings.Replace, List.flatMap_cons]
  rw [h1]
  rw [List.cons_append]
  unfold sqlLike
  rw [if_neg (by decide), if_neg (by decide), if_neg (by decide)]
  simp only [decide_True, Bool.true_and]
  by_cases hc : c = '%'
  · rw [if_pos hc]
    exact sqlLike_nil _ _ (by decide)
  · rw [if_neg hc]
    exact sqlLike_nil _ _ hc

theorem hasRoot_removeAll (db : Table) (now : Nat) (name : Str)
    (hn : clearName name ≠ .ok ['/']) (h : hasRoot db = true) :
    hasRoot (removeAll db now name).2 = true := by
  unfold removeAll
  split
  · exact h
  · rename_i n hcn
    have hn1 : n ≠ ['/'] := fun hh => hn (by rw [hcn, hh])
    obtain ⟨m, _, _, hp, hm⟩ := (clearName_ok_iff name n).mp hcn
    subst hm
    rw [HasPrefix_slash] at hp
    obtain ⟨r, hr, hrn⟩ := (hasRoot_iff db).mp h
    split
    · exact h
    · split
      · rw [hasRoot_iff]
        refine ⟨r, ?_, hrn⟩
        simp only [deleteLike, List.mem_filter, hr, true_and, Bool.not_eq_true']
        rw [hrn]
        cases n with
        | nil => simp at hp
        | cons a t =>
          simp only [List.head?_cons, Option.some.injEq] at hp
          subst hp
          cases t with
          | nil => exact absurd rfl hn1
          | cons c rest => exact sqlLike_root c rest
      · rw [hasRoot_iff]
        refine ⟨r, ?_, hrn⟩
        simp only [deleteByName, List.mem_filter, hr, true_and, Bool.not_eq_true',
          decide_eq_false_iff_not]
        rw [hrn]
        exact fun hh => hn1 hh.symm

theorem clearName_no_suffix_ne_root {name n : Str} (h : clearName name = .ok n)
    (hs : strings.HasSuffix n ['/'] = false) : clearName n ≠ .ok ['/'] := by
  rw [clearName_idem name n h]
  intro hh
  simp only [Except.ok.injEq] at hh
  subst hh
  exact absurd hs (by decide)

theorem hasRoot_OpenFile (db : Table) (now : Nat) (name : Str) (flag perm : Nat)
    (h : hasRoot db = true) : hasRoot (OpenFile db now name flag perm).2 = true := by
  unfold OpenFile
  split
  · exact h
  · rename_i n hcn
    split
    · split
      · exact h
      · rename_i hs
        have hs1 : strings.HasSuffix n ['/'] = false := by simpa using hs
        split
        · exact h
        · dsimp only
          have hstep : ∀ (step : Option Err × Table), hasRoot step.2 = true →
              hasRoot (match step with
                | (some e, db1) => ((.error e : Except Err File), db1)
                | (none, db1) =>
                  match insertRow db1 n (Perm perm) now with
                  | .error e => (.error e, db1)
                  | .ok db2 => (.ok ⟨n, 0, none⟩, db2)).2 = true := by
            intro step hstep
            obtain ⟨e, db1⟩ := step
            cases e with
            | some e => exact hstep
            | none =>
              dsimp only
              split
              · exact hstep
              · rename_i db2 hins
                exact hasRoot_insertRow hins hstep
          apply hstep
          split
          · split
            · exact h
            · exact hasRoot_removeAll db now n (clearName_no_suffix_ne_root hcn hs1) h
          · exact h
    · split
      · exact h
      · exact h

theorem updateName_ok {db db1 : Table} {newName oldName : Str}
    (h : updateName db newName oldName = .ok db1) :
    db1 = db ∨
      db1 = db.map (fun r => if r.name = oldName then { r with name := newName } else r) := by
  unfold updateName at h
  by_cases h1 : newName = oldName
  · rw [if_pos h1] at h
    left
    simpa [eq_comm] using h
  · rw [if_neg h1] at h
    by_cases h2 : (db.any (fun r => r.name = oldName) && db.any (fun r => r.name = newName)) = true
    · rw [if_pos h2] at h
      exact absurd h (by simp)
    · rw [if_neg h2] at h
      right
      simpa [eq_comm] using h

theorem hasRoot_Rename (db : Table) (now : Nat) (oldName newName : Str)
    (hn : clearName oldName ≠ .ok ['/']) (h : hasRoot db = true) :
    hasRoot (Rename db now oldName newName).2 = true := by
  unfold Rename
  split
  · exact h
  · rename_i o hco
    have ho1 : o ≠ ['/'] := fun hh => hn (by rw [hco, hh])
    obtain ⟨m, _, _, hp, hm⟩ := (clearName_ok_iff oldName o).mp hco
    subst hm
    rw [HasPrefix_slash] at hp
    split
    · exact h
    · split
      · exact h
      · dsimp only
        split
        · exact h
        · split
          · exact h
          · rename_i db1 hup
            rcases updateName_ok hup with hup | hup
            · subst hup; exact h
            · · subst hup
                obtain ⟨r, hr, hrn⟩ := (hasRoot_iff db).mp h
                rw [hasRoot_iff]
                refine ⟨_, List.mem_map_of_mem _ hr, ?_⟩
                have hne : ∀ b : Bool, r.name ≠ (if b = true then o ++ ['/'] else o) := by
                  intro b
                  rw [hrn]
                  split
                  · cases o with
                    | nil => simp at hp
                    | cons a t => simp
                  · exact fun hh => ho1 hh.symm
                rw [if_neg (hne _)]
                exact hrn

theorem hasRoot_Write (f : File) (db : Table) (p : List Byte) (h : hasRoot db = true) :
    hasRoot (f.Write db p).2.2 = true := by
  obtain ⟨r, hr, hrn⟩ := (hasRoot_iff db).mp h
  rw [hasRoot_iff]
  simp only [File.Write, updateContent]
  refine ⟨_, List.mem_map_of_mem _ hr, ?_⟩
  split <;> exact hrn

theorem hasRoot_apply (db : Table) (op : Op) (hs : op.sparesRoot = true)
    (h : hasRoot db = true) : hasRoot (op.apply db) = true := by
  cases op with
  | mkdir now name perm => exact hasRoot_Mkdir db now name perm h
  | openFile now name flag perm => exact hasRoot_OpenFile db now name flag perm h
  | removeAll now name =>
    exact hasRoot_removeAll db now name (by simpa [Op.sparesRoot] using hs) h
  | rename now o n =>
    exact hasRoot_Rename db now o n (by simpa [Op.sparesRoot] using hs) h
  | write f p => exact hasRoot_Write f db p h

theorem hasRoot_run (ops : List Op) : ∀ (db : Table), (∀ op ∈ ops, op.sparesRoot = true) →
    hasRoot db = true → hasRoot (run db ops) = true := by
  induction ops with
  | nil => intro db _ h; exact h
  | cons op ops ih =>
    intro db hs h
    simp only [run, List.foldl_cons]
    exact ih _ (fun o ho => hs o (by simp [ho])) (hasRoot_apply db op (hs op (by simp)) h)



/-! ### The content codec and the handle -/

theorem wrap64_eq (x : Int) (h0 : -2 ^ 63 ≤ x) (h1 : x < 2 ^ 63) : wrap64 x = x := by
  unfold wrap64
  omega

theorem fromHexChar_hextable : ∀ i : Fin 16, hex.fromHexChar (hex.hextable i.val) = some i.val := by
  decide

theorem hex_encode_length (b : List Byte) : (hex.EncodeToString b).length = 2 * b.length := by
  induction b with
  | nil => rfl
  | cons x b ih => simp [hex.EncodeToString, ih]; omega

theorem hex_decode_encode (b : List Byte) : hex.DecodeString (hex.EncodeToString b) = .ok b := by
  induction b with
  | nil => rfl
  | cons x b ih =>
    have h1 := fromHexChar_hextable ⟨x.val / 16, by omega⟩
    have h2 := fromHexChar_hextable ⟨x.val % 16, by omega⟩
    simp only at h1 h2
    simp only [hex.EncodeToString, hex.DecodeString, h1, h2, ih]
    congr 1
    congr 1
    apply Fin.ext
    simp [Fin.ofNat]
    omega

theorem hex_decode_length : ∀ (s : Str) (c : List Byte),
    hex.DecodeString s = .ok c → s.length = 2 * c.length
  | [], c, h => by
    simp [hex.DecodeString] at h; subst h; rfl
  | [_], c, h => by simp [hex.DecodeString] at h
  | a :: b :: s, c, h => by
    simp only [hex.DecodeString] at h
    split at h
    · split at h
      · rename_i bs hbs
        simp only [Except.ok.injEq] at h
        subst h
        have := hex_decode_length s bs hbs
        simp [this]; omega
      · exact absurd h (by simp)
    · exact absurd h (by simp)

theorem hex_decode_take : ∀ (s : Str) (c : List Byte) (k : Nat),
    hex.DecodeString s = .ok c → hex.DecodeString (s.take (2 * k)) = .ok (c.take k)
  | [], c, k, h => by
    simp [hex.DecodeString] at h; subst h; simp [hex.DecodeString]
  | [_], c, k, h => by simp [hex.DecodeString] at h
  | a :: b :: s, c, k, h => by
    simp only [hex.DecodeString] at h
    split at h
    · rename_i x y hx hy
      split at h
      · rename_i bs hbs
        simp only [Except.ok.injEq] at h
        subst h
        cases k with
        | zero => simp [hex.DecodeString]
        | succ k =>
          have := hex_decode_take s bs k hbs
          have e : 2 * (k + 1) = 2 * k + 1 + 1 := by omega
          rw [e]
          simp only [List.take_succ_cons, hex.DecodeString, hx, hy, this]
      · exact absurd h (by simp)
    · exact absurd h (by simp)

theorem hex_decode_append : ∀ (s t : Str) (c d : List Byte),
    hex.DecodeString s = .ok c → hex.DecodeString t = .ok d →
    hex.DecodeString (s ++ t) = .ok (c ++ d)
  | [], t, c, d, h, ht => by
    simp [hex.DecodeString] at h; subst h; simpa using ht
  | [_], t, c, d, h, ht => by simp [hex.DecodeString] at h
  | a :: b :: s, t, c, d, h, ht => by
    simp only [hex.DecodeString] at h
    split at h
    · rename_i x y hx hy
      split at h
      · rename_i bs hbs
        simp only [Except.ok.injEq] at h
        subst h
        have := hex_decode_append s t bs d hbs ht
        show hex.DecodeString (a :: b :: (s ++ t)) = _
        simp only [hex.DecodeString, hx, hy, this, List.cons_append]
      · exact absurd h (by simp)
    · exact absurd h (by simp)

theorem sqlSubstr_one (s : Str) (len : Nat) : sqlSubstr s 1 (len : Int) = s.take len := by
  unfold sqlSubstr
  split
  · rename_i h
    have : len = 0 := by omega
    subst this; simp
  · simp

theorem IsDir_Perm (perm : Nat) : IsDir (Perm perm) = false := by
  have h : Perm perm < 2 ^ 9 := by
    unfold Perm
    exact Nat.lt_of_le_of_lt Nat.and_le_right (by decide)
  have : Perm perm &&& ModeDir = 0 := by
    apply Nat.eq_of_testBit_eq
    intro i
    simp only [Nat.testBit_and, Nat.zero_testBit, Bool.and_eq_false_imp]
    intro hi
    have h31 : ModeDir = 2 ^ 31 := by decide
    rw [h31, Nat.testBit_two_pow]
    simp only [decide_eq_false_iff_not]
    intro h31i
    subst h31i
    have := Nat.testBit_lt_two_pow (x := Perm perm) (i := 31) (by
      exact Nat.lt_trans h (by decide))
    rw [this] at hi
    exact absurd hi (by simp)
  simp [IsDir, this]

theorem selectByName_updateContent (db : Table) (len : Int) (tail name : Str) :
    selectByName (updateContent db len tail name) name =
      (selectByName db name).map
        (fun r => { r with content := sqlSubstr r.content 1 len ++ tail }) := by
  induction db with
  | nil => rfl
  | cons r db ih =>
    simp only [selectByName, updateContent, List.map_cons, List.find?_cons] at ih ⊢
    by_cases h : r.name = name
    · simp [h]
    · simp only [h, if_false, decide_False]
      exact ih

theorem updateContent_frame (db : Table) (len : Int) (tail name : Str) (i : Nat) (r : Row)
    (h : db[i]? = some r) (hn : r.name ≠ name) :
    (updateContent db len tail name)[i]? = some r := by
  simp [updateContent, List.getElem?_map, h, hn]


theorem Read_eq (f : File) (db : Table) (len : Nat) (r : Row) (b : List Byte)
    (hsel : selectByName db f.name = some r) (hm : IsDir r.mode = false)
    (hdec : hex.DecodeString
      (sqlSubstr r.content (wrap64 (1 + wrap64 (f.off * 2))) (wrap64 (len * 2))) = .ok b) :
    f.Read db len =
      if b.length = 0 then ((0, some .EOF), [], { f with off := wrap64 (f.off + b.length) })
      else ((b.length, none), b.take len, { f with off := wrap64 (f.off + b.length) }) := by
  unfold File.Read
  rw [hsel]
  simp only [hm, hdec, Bool.false_eq_true, if_false]

theorem Read_whole (f : File) (db : Table) (r : Row) (b : List Byte)
    (hoff : f.off = 0) (hsel : selectByName db f.name = some r)
    (hcontent : r.content = hex.EncodeToString b) (hm : IsDir r.mode = false)
    (hb : 2 * (b.length : Int) < 2 ^ 63) :
    f.Read db b.length =
      if b = [] then ((0, some .EOF), [], f)
      else ((b.length, none), b, { f with off := b.length }) := by
  have hp1 : wrap64 (1 + wrap64 (f.off * 2)) = 1 := by rw [hoff]; unfold wrap64; omega
  have hp2 : wrap64 ((b.length : Int) * 2) = ((2 * b.length : Nat) : Int) := by
    rw [wrap64_eq] <;> push_cast <;> omega
  have ht : (hex.EncodeToString b).take (2 * b.length) = hex.EncodeToString b := by
    rw [List.take_of_length_le]; rw [hex_encode_length]
  have hwl : wrap64 (f.off + (b.length : Int)) = (b.length : Int) := by
    rw [hoff, wrap64_eq] <;> omega
  rw [Read_eq f db b.length r b hsel hm
    (by rw [hp1, hp2, sqlSubstr_one, hcontent, ht, hex_decode_encode]), hwl]
  by_cases hb0 : b = []
  · subst hb0
    rw [if_pos rfl, if_pos (show ([] : List Byte).length = 0 from rfl)]
    cases f
    simp only at hoff
    subst hoff
    rfl
  · have hl : b.length ≠ 0 := fun h => hb0 (List.length_eq_zero.mp h)
    rw [if_neg hl, if_neg hb0, List.take_of_length_le (le_refl _)]

/-! ### Opening with the create flag -/

theorem insertRow_ok {db db1 : Table} {name : Str} {mode now : Nat}
    (h : insertRow db name mode now = .ok db1) :
    db1 = db ++ [⟨name, [], mode, now⟩] ∧ ∀ r ∈ db, r.name ≠ name := by
  unfold insertRow at h
  by_cases hany : db.any (fun r => r.name = name) = true
  · rw [if_pos hany] at h
    exact absurd h (by simp)
  · rw [if_neg hany] at h
    simp only [Except.ok.injEq] at h
    refine ⟨h.symm, ?_⟩
    intro r hr hn
    apply hany
    simp only [List.any_eq_true, decide_eq_true_eq]
    exact ⟨r, hr, hn⟩

theorem insertRow_of_absent (db : Table) (name : Str) (mode now : Nat)
    (h : selectByName db name = none) :
    insertRow db name mode now = .ok (db ++ [⟨name, [], mode, now⟩]) := by
  unfold insertRow
  have hany : ¬ db.any (fun r => r.name = name) = true := by
    simp only [selectByName, List.find?_eq_none, decide_eq_true_eq] at h
    simp only [List.any_eq_true, decide_eq_true_eq, not_exists, not_and]
    exact h
  rw [if_neg hany]

theorem selectByName_insert {db : Table} {name : Str} (row : Row) (hrow : row.name = name)
    (h : ∀ r ∈ db, r.name ≠ name) : selectByName (db ++ [row]) name = some row := by
  unfold selectByName
  rw [List.find?_append]
  have : db.find? (fun r => decide (r.name = name)) = none := by
    simp only [List.find?_eq_none, decide_eq_true_eq]
    exact h
  rw [this]
  simp [hrow]

theorem stat_error_absent {db : Table} {now : Nat} {n : Str} {e : Err}
    (hc : clearName n = .ok n) (h : stat db now n = .error e) : selectByName db n = none := by
  unfold stat at h
  rw [hc] at h
  dsimp only at h
  cases hs : statRow db n with
  | some r =>
    rw [hs] at h
    dsimp only at h
    split at h <;> exact absurd h (by simp)
  | none =>
    unfold statRow at hs
    cases h1 : selectByName db n with
    | none => rfl
    | some r => rw [h1] at hs; exact absurd hs (by simp)

theorem stat_of_select {db : Table} (now : Nat) {n : Str} {r : Row}
    (hc : clearName n = .ok n) (h : selectByName db n = some r) :
    ∃ fi, stat db now n = .ok fi ∧ fi.mode = r.mode := by
  unfold stat
  rw [hc]
  dsimp only
  have hs : statRow db n = some r := by
    unfold statRow
    rw [h]
  rw [hs]
  dsimp only
  split
  · exact ⟨_, rfl, rfl⟩
  · exact ⟨_, rfl, rfl⟩

/-- A successful `OpenFile` with the create flag ends with the insertion of the
row of the new file. -/
theorem OpenFile_create_ok {db db1 : Table} {now : Nat} {name : Str} {flag perm : Nat} {f : File}
    (hflag : flag &&& O_CREATE ≠ 0) (h : OpenFile db now name flag perm = (.ok f, db1)) :
    ∃ n dbx, clearName name = .ok n ∧ f = ⟨n, 0, none⟩ ∧
      insertRow dbx n (Perm perm) now = .ok db1 := by
  unfold OpenFile at h
  cases hc : clearName name with
  | error e => rw [hc] at h; simp at h
  | ok n =>
    rw [hc] at h
    dsimp only at h
    rw [if_pos hflag] at h
    split at h
    · simp at h
    · split at h
      · simp at h
      · split at h
        · simp at h
        · rename_i db0 _
          cases hi : insertRow db0 n (Perm perm) now with
          | error e => rw [hi] at h; simp at h
          | ok db2 =>
            rw [hi] at h
            simp only [Prod.mk.injEq, Except.ok.injEq] at h
            refine ⟨n, db0, rfl, h.1.symm, ?_⟩
            rw [← h.2]
            exact hi

theorem OpenFile_create_new {db : Table} {now : Nat} {name n : Str} {flag perm : Nat}
    {fi : FileInfo} {e : Err}
    (hflag : flag &&& O_CREATE ≠ 0) (hc : clearName name = .ok n)
    (hs : strings.HasSuffix n ['/'] = false)
    (hdir : stat db now (path.Split n).1 = .ok fi) (hnew : stat db now n = .error e) :
    OpenFile db now name flag perm = (.ok ⟨n, 0, none⟩, db ++ [⟨n, [], Perm perm, now⟩]) := by
  have habs := stat_error_absent (clearName_idem name n hc) hnew
  unfold OpenFile
  rw [hc]
  dsimp only
  rw [if_pos hflag, if_neg (by simp [hs]), hdir]
  dsimp only
  rw [hnew]
  dsimp only
  rw [insertRow_of_absent db n (Perm perm) now habs]


/-! ### Directory listing -/

theorem loadChildren_cached (f : File) (db : Table) (now : Nat) (L : List FileInfo)
    (h : f.children = some L) : f.loadChildren db now = (none, L) := by
  unfold File.loadChildren
  rw [h]

/-- A call `Readdir(count)` with `count <= 0` on a handle whose cursor is before
the end of its list. -/
theorem Readdir_nonpos (f : File) (db : Table) (now : Nat) (count : Int) (L : List FileInfo)
    (hL : f.loadChildren db now = (none, L)) (h1 : f.off < L.length) (hc : count ≤ 0) :
    f.Readdir db now count = (.ok L, { f with children := some L, off := L.length }) := by
  unfold File.Readdir
  rw [hL]
  have hc1 : ¬ count > 0 := by omega
  have h2 : ¬ f.off ≥ (L.length : Int) := by omega
  simp only [hc1, h2, if_false]
  rw [if_neg (by omega)]
  simp

/-- A call `Readdir(count)` with `count <= 0` on a handle whose cursor is at the
end of its list, or after it. -/
theorem Readdir_nonpos_end (f : File) (db : Table) (now : Nat) (count : Int) (L : List FileInfo)
    (hL : f.loadChildren db now = (none, L)) (h1 : (L.length : Int) ≤ f.off) (hc : count ≤ 0) :
    f.Readdir db now count = (.ok [], { f with children := some L }) := by
  unfold File.Readdir
  rw [hL]
  have hc1 : ¬ count > 0 := by omega
  have h2 : f.off ≥ (L.length : Int) := by omega
  simp only [hc1, h2, if_false, if_true]

/-- A call `Readdir(c)` with `c > 0`. -/
theorem Readdir_pos (f : File) (db : Table) (now : Nat) (c o : Nat) (L : List FileInfo)
    (hL : f.loadChildren db now = (none, L)) (hoff : f.off = o) (hc : 0 < c)
    (hov : o < L.length → (o : Int) + c < 2 ^ 63) :
    f.Readdir db now c =
      if o < L.length then
        (.ok ((L.drop o).take c), { f with children := some L, off := (min (o + c) L.length : Nat) })
      else (.error .EOF, { f with children := some L }) := by
  unfold File.Readdir
  rw [hL]
  have hc1 : (c : Int) > 0 := by omega
  by_cases ho : o < L.length
  · have h2 : ¬ f.off ≥ (L.length : Int) := by omega
    have hw : wrap64 (f.off + c) = ((o + c : Nat) : Int) := by
      rw [hoff, wrap64_eq] <;> push_cast <;> have := hov ho <;> omega
    simp only [hc1, h2, if_false, if_true, hw, ho]
    have hoff1 : (if ((o + c : Nat) : Int) > (L.length : Int) then (L.length : Int)
        else ((o + c : Nat) : Int)) = ((min (o + c) L.length : Nat) : Int) := by
      split <;> omega
    rw [hoff1, hoff, if_neg (by omega)]
    have htake : (L.drop o).take (min (o + c) L.length - o) = (L.drop o).take c := by
      by_cases hle : o + c ≤ L.length
      · rw [Nat.min_eq_left hle]; congr 1; omega
      · rw [Nat.min_eq_right (by omega), List.take_of_length_le (by simp),
          List.take_of_length_le (by simp; omega)]
    simp only [Int.toNat_ofNat, htake]
  · have h2 : f.off ≥ (L.length : Int) := by omega
    simp only [hc1, h2, if_true, ho, if_false]

/-- The results of `k` successive calls `Readdir(c)`, `c > 0`, from the cursor
reached after `j` calls. -/
theorem readdirCalls_spec (db : Table) (now : Nat) (L : List FileInfo) (c : Nat) (hc : 0 < c)
    (hc63 : (c : Int) < 2 ^ 63) (hn : L.length < 2 ^ 62) :
    ∀ (k j : Nat) (f : File), f.loadChildren db now = (none, L) →
      f.off = (min (j * c) L.length : Nat) →
      (readdirCalls db now c k f).1 =
        (List.range k).map (fun i =>
          if (j + i) * c < L.length then Except.ok ((L.drop ((j + i) * c)).take c)
          else Except.error Err.EOF) := by
  intro k
  induction k with
  | zero => intro j f _ _; rfl
  | succ k ih =>
    intro j f hL hoff
    have hstep := Readdir_pos f db now c (min (j * c) L.length) L hL hoff hc (by
      intro ho
      have h1 : j * c < L.length := by omega
      rw [Nat.min_eq_left (le_of_lt h1)]
      rcases Nat.eq_zero_or_pos j with h0 | h0
      · subst h0; simpa using hc63
      · have : c ≤ j * c := Nat.le_mul_of_pos_left c h0
        have h62 : ((2 : Int) ^ 62) + 2 ^ 62 = 2 ^ 63 := by norm_num
        have h62n : ((2 ^ 62 : Nat) : Int) = (2 : Int) ^ 62 := by norm_num
        push_cast
        omega)
    simp only [readdirCalls]
    rw [List.range_succ_eq_map, List.map_cons, List.map_map]
    by_cases hj : j * c < L.length
    · have hmin : min (j * c) L.length = j * c := Nat.min_eq_left (le_of_lt hj)
      rw [hmin] at hstep
      rw [if_pos hj] at hstep
      rw [hstep]
      simp only [Nat.add_zero, hj, if_true]
      congr 1
      have := ih (j + 1)
        { f with children := some L, off := (min (j * c + c) L.length : Nat) }
        (loadChildren_cached _ db now L rfl) (by simp [Nat.add_mul])
      rw [this]
      apply List.map_congr_left
      intro i _
      simp only [Function.comp, Nat.succ_eq_add_one]
      have e : j + 1 + i = j + (i + 1) := by omega
      rw [e]
    · have hmin : min (j * c) L.length = L.length := Nat.min_eq_right (by omega)
      rw [hmin] at hstep hoff
      rw [if_neg (by omega)] at hstep
      rw [hstep]
      simp only [Nat.add_zero, hj, if_false]
      congr 1
      have hj1 : ¬ (j + 1) * c < L.length := by
        rw [Nat.add_mul]; omega
      have := ih (j + 1) { f with children := some L }
        (loadChildren_cached _ db now L rfl) (by
          rw [Nat.min_eq_right (by rw [Nat.add_mul]; omega)]; exact hoff)
      rw [this]
      apply List.map_congr_left
      intro i _
      simp only [Function.comp, Nat.succ_eq_add_one]
      have e : j + 1 + i = j + (i + 1) := by omega
      rw [e]

/-- The consecutive slices of length `c` of a list, put together, are its front. -/
theorem chunks_flatten (L : List FileInfo) (c : Nat) : ∀ m : Nat,
    ((List.range m).map (fun i => (L.drop (i * c)).take c)).flatten = L.take (m * c) := by
  intro m
  induction m with
  | zero => simp
  | succ m ih =>
    rw [List.range_succ, List.map_append, List.flatten_append, ih]
    simp only [List.map_cons, List.map_nil, List.flatten_cons, List.flatten_nil, List.append_nil]
    rw [Nat.add_mul, Nat.one_mul, List.take_add]
/-! ### Canonical names as lists of segments -/

theorem flat_append (xs ys : List Str) : flat (xs ++ ys) = flat xs ++ flat ys := by
  simp [flat]

theorem flat_snoc (xs : List Str) (e : Str) : flat (xs ++ [e]) = flat xs ++ '/' :: e := by
  simp [flat]

/-- The results of `clearName` are the lists of valid segments, each after a
separator, followed by a separator (the form of a directory, the root included) or
not (the form of a file). -/
theorem clearName_ok_flat (p n : Str) (h : clearName p = .ok n) :
    ∃ es, (∀ e ∈ es, validElem e) ∧ (n = flat es ++ ['/'] ∨ (es ≠ [] ∧ n = flat es)) := by
  obtain ⟨st, hst, hr | ⟨hne, hr⟩⟩ := clearName_ok_form p n h
  · by_cases h0 : st = []
    · subst h0
      exact ⟨[], by simp, Or.inl (by rw [hr]; simp [rbuf, flat])⟩
    · refine ⟨st.reverse, by simpa using hst, Or.inr ⟨by simpa using h0, ?_⟩⟩
      rw [hr, canon_eq_flat h0]
  · refine ⟨st.reverse, by simpa using hst, Or.inl ?_⟩
    rw [hr, canon_eq_flat hne]

theorem clearName_flat {es : List Str} (h : ∀ e ∈ es, validElem e) (hne : es ≠ []) :
    clearName (flat es) = .ok (flat es) := by
  have := @clearName_canon es.reverse (by simpa using h)
  rwa [canon_eq_flat (by simpa using hne), List.reverse_reverse] at this

theorem clearName_flat_slash {es : List Str} (h : ∀ e ∈ es, validElem e) :
    clearName (flat es ++ ['/']) = .ok (flat es ++ ['/']) := by
  by_cases hne : es = []
  · subst hne; decide
  · have := @clearName_canon_slash es.reverse (by simpa using h) (by simpa using hne)
    rwa [canon_eq_flat (by simpa using hne), List.reverse_reverse] at this

theorem HasSuffix_append_slash (s : Str) : strings.HasSuffix (s ++ ['/']) ['/'] = true := by
  rw [HasSuffix_slash]; simp

theorem HasSuffix_flat {es : List Str} (h : ∀ e ∈ es, validElem e) (hne : es ≠ []) :
    strings.HasSuffix (flat es) ['/'] = false := by
  have := @HasSuffix_canon es.reverse (by simpa using h) (by simpa using hne)
  rwa [canon_eq_flat (by simpa using hne), List.reverse_reverse] at this

/-- Go `path.Split` cuts after the last separator. -/
theorem Split_append (d e : Str) (he : '/' ∉ e) :
    path.Split (d ++ '/' :: e) = (d ++ ['/'], e) := by
  have hr : (d ++ '/' :: e).reverse = e.reverse ++ ('/' :: d.reverse) := by simp
  have := takeWhile_elem e.reverse ('/' :: d.reverse) (by simpa using he) (Or.inr rfl)
  simp only [path.Split, hr, this.1, this.2]
  simp

theorem Split_no_slash (e : Str) (he : '/' ∉ e) : path.Split e = ([], e) := by
  have := takeWhile_elem e.reverse [] (by simpa using he) (Or.inl rfl)
  simp only [List.append_nil] at this
  simp only [path.Split, this.1, this.2]
  simp

/-- A list that is not empty has a last element. -/
theorem exists_snoc {α : Type} (l : List α) (h : l ≠ []) : ∃ pre e, l = pre ++ [e] :=
  ⟨l.dropLast, l.getLast h, (List.dropLast_append_getLast h).symm⟩

/-- The parent directory of a canonical name without trailing separator is a
canonical name with trailing separator. -/
theorem clearName_parent (name n : Str) (h : clearName name = .ok n)
    (hs : strings.HasSuffix n ['/'] = false) :
    clearName (path.Split n).1 = .ok (path.Split n).1 ∧
      strings.HasSuffix (path.Split n).1 ['/'] = true ∧
      ∃ e, n = (path.Split n).1 ++ e ∧ e ≠ [] ∧ '/' ∉ e := by
  obtain ⟨es, hes, hn | ⟨hne, hn⟩⟩ := clearName_ok_flat name n h
  · rw [hn, HasSuffix_append_slash] at hs
    exact absurd hs (by simp)
  · obtain ⟨pre, e, hpe⟩ := exists_snoc es hne
    subst hpe
    have hev := hes e (by simp)
    rw [hn, flat_snoc, Split_append _ _ hev.2.1]
    refine ⟨clearName_flat_slash (fun x hx => hes x (by simp [hx])),
      HasSuffix_append_slash _, e, by simp, hev.1, hev.2.1⟩

theorem statRow_slash {db : Table} {d : Str} (hs : strings.HasSuffix d ['/'] = true) :
    statRow db d = selectByName db d := by
  unfold statRow
  cases selectByName db d with
  | some r => rfl
  | none => simp [hs]

/-- For a canonical directory name `stat` fails with `ErrNotExist` when the table
has no row of that name. -/
theorem stat_absent {db : Table} (now : Nat) {d : Str} (hc : clearName d = .ok d)
    (hs : strings.HasSuffix d ['/'] = true) (h : selectByName db d = none) :
    stat db now d = .error .ErrNotExist := by
  unfold stat
  rw [hc]
  simp only [statRow_slash hs, h]

theorem stat_ok_select {db : Table} {now : Nat} {d : Str} {fi : FileInfo}
    (hc : clearName d = .ok d) (hs : strings.HasSuffix d ['/'] = true)
    (h : stat db now d = .ok fi) : ∃ r, selectByName db d = some r := by
  cases hsel : selectByName db d with
  | some r => exact ⟨r, rfl⟩
  | none => rw [stat_absent now hc hs hsel] at h; exact absurd h (by simp)

/-! ### Opening with the create flag, the cases -/

theorem OpenFile_create_suffix {db : Table} {now : Nat} {name n : Str} {flag perm : Nat}
    (hflag : flag &&& O_CREATE ≠ 0) (hc : clearName name = .ok n)
    (hs : strings.HasSuffix n ['/'] = true) :
    OpenFile db now name flag perm = (.error .ErrInvalid, db) := by
  unfold OpenFile
  rw [hc]
  dsimp only
  rw [if_pos hflag, if_pos hs]

theorem OpenFile_create_no_parent {db : Table} {now : Nat} {name n : Str} {flag perm : Nat}
    {e : Err} (hflag : flag &&& O_CREATE ≠ 0) (hc : clearName name = .ok n)
    (hs : strings.HasSuffix n ['/'] = false) (hdir : stat db now (path.Split n).1 = .error e) :
    OpenFile db now name flag perm = (.error .ErrInvalid, db) := by
  unfold OpenFile
  rw [hc]
  dsimp only
  rw [if_pos hflag, if_neg (by simp [hs]), hdir]

theorem OpenFile_create_excl {db : Table} {now : Nat} {name n : Str} {flag perm : Nat}
    {fi fi2 : FileInfo} (hflag : flag &&& O_CREATE ≠ 0) (hc : clearName name = .ok n)
    (hs : strings.HasSuffix n ['/'] = false) (hdir : stat db now (path.Split n).1 = .ok fi)
    (hex : stat db now n = .ok fi2) (hexcl : flag &&& O_EXCL ≠ 0) :
    OpenFile db now name flag perm = (.error .ErrExist, db) := by
  unfold OpenFile
  rw [hc]
  dsimp only
  rw [if_pos hflag, if_neg (by simp [hs]), hdir]
  dsimp only
  rw [hex]
  dsimp only
  rw [if_pos hexcl]

/-- The replacement of an existing entry by `OpenFile` with the create flag and
without the exclusive flag: `removeAll`, then the insertion. -/
theorem OpenFile_create_replace {db : Table} {now : Nat} {name n : Str} {flag perm : Nat}
    {fi fi2 : FileInfo} (hflag : flag &&& O_CREATE ≠ 0) (hc : clearName name = .ok n)
    (hs : strings.HasSuffix n ['/'] = false) (hdir : stat db now (path.Split n).1 = .ok fi)
    (hex : stat db now n = .ok fi2) (hexcl : ¬ flag &&& O_EXCL ≠ 0) :
    OpenFile db now name flag perm =
      match insertRow (removeAll db now n).2 n (Perm perm) now with
      | .error e => (.error e, (removeAll db now n).2)
      | .ok db2 => (.ok ⟨n, 0, none⟩, db2) := by
  unfold OpenFile
  rw [hc]
  dsimp only
  rw [if_pos hflag, if_neg (by simp [hs]), hdir]
  dsimp only
  rw [hex]
  dsimp only
  rw [if_neg hexcl]

theorem removeAll_file {db : Table} {now : Nat} {n : Str} {fi : FileInfo}
    (hc : clearName n = .ok n) (hst : stat db now n = .ok fi) (hd : IsDir fi.mode = false) :
    removeAll db now n = (none, deleteByName db n) := by
  unfold removeAll
  rw [hc]
  dsimp only
  rw [hst]
  dsimp only
  rw [if_neg (by simp [hd])]

theorem removeAll_dir {db : Table} {now : Nat} {n : Str} {fi : FileInfo}
    (hc : clearName n = .ok n) (hst : stat db now n = .ok fi) (hd : IsDir fi.mode = true) :
    removeAll db now n =
      (none, deleteLike db (strings.Replace n '%' ['\\', '%'] ++ ['%'])) := by
  unfold removeAll
  rw [hc]
  dsimp only
  rw [hst]
  dsimp only
  rw [if_pos hd]

theorem selectByName_deleteByName (db : Table) (n : Str) :
    selectByName (deleteByName db n) n = none := by
  simp [selectByName, deleteByName, List.find?_eq_none]

/-- The entry that `stat` makes of a row is the one the lookup rule describes. -/
theorem describes_stat (r : Row) (now : Nat) :
    describes
      (if (path.Split (path.Clean r.name)).2 = [] then
        ⟨['/'], (((r.content.length + 1) / 2 : Nat) : Int), r.mode, now⟩
       else ⟨(path.Split (path.Clean r.name)).2, (((r.content.length + 1) / 2 : Nat) : Int),
        r.mode, r.mod_time⟩) r := by
  have hsize : ∀ fi : FileInfo, fi.size = ((r.content.length + 1) / 2 : Nat) →
      (r.content.length % 2 = 0 → 2 * fi.size = r.content.length) := by
    intro fi h he
    rw [h]
    omega
  refine ⟨by split <;> rfl, hsize _ (by split <;> rfl), by split <;> rfl, ?_, ?_⟩
  · intro hn
    have h0 : (path.Split (path.Clean r.name)).2 = [] := by rw [hn]; decide
    rw [if_pos h0]
  · intro es e hes he hname
    have hall : ∀ x ∈ es ++ [e], validElem x := by
      intro x hx
      rcases List.mem_append.mp hx with h | h
      · exact hes x h
      · simp at h; rw [h]; exact he
    have hC : path.Clean r.name = flat es ++ '/' :: e := by
      rcases hname with h | h
      · have := Clean_canon (es ++ [e]) [] hall (Or.inl rfl) (by simp [flat])
        rw [List.append_nil] at this
        rw [h, this, canon_eq_flat (by simp), List.reverse_reverse, flat_snoc]
      · have := Clean_canon (es ++ [e]) ['/'] hall (Or.inr rfl) (by simp)
        rw [h, this, canon_eq_flat (by simp), List.reverse_reverse, flat_snoc]
    rw [hC, Split_append _ _ he.2.1]
    rw [if_neg he.1]
    exact ⟨rfl, rfl⟩

theorem stat_describes {db : Table} {now : Nat} {p n : Str} {r : Row}
    (hc : clearName p = .ok n) (hrow : statRow db n = some r) :
    ∃ fi, stat db now p = .ok fi ∧ describes fi r := by
  unfold stat
  rw [hc]
  dsimp only
  rw [hrow]
  dsimp only
  have := describes_stat r now
  split
  · rename_i h0
    rw [if_pos h0] at this
    exact ⟨_, rfl, this⟩
  · rename_i h0
    rw [if_neg h0] at this
    exact ⟨_, rfl, this⟩

/-! ### The walk of `Mkdir` -/

theorem Split_no_sep (e : Str) (he : '/' ∉ e) : strings.Split '/' e = [e] := by
  induction e with
  | nil => rfl
  | cons c e ih =>
    have hc : c ≠ '/' := fun h => he (by simp [h])
    have he1 : '/' ∉ e := fun h => he (by simp [h])
    simp only [strings.Split, hc, if_false, ih he1]

theorem Split_sep (e rest : Str) (he : '/' ∉ e) :
    strings.Split '/' (e ++ '/' :: rest) = e :: strings.Split '/' rest := by
  induction e with
  | nil => simp [strings.Split]
  | cons c e ih =>
    have hc : c ≠ '/' := fun h => he (by simp [h])
    have he1 : '/' ∉ e := fun h => he (by simp [h])
    show strings.Split '/' (c :: (e ++ '/' :: rest)) = _
    rw [strings.Split, if_neg hc, ih he1]

/-- Go `strings.Split` gives back the segments of a canonical name. -/
theorem Split_flat (es : List Str) (hes : ∀ e ∈ es, validElem e) : ∀ e : Str, '/' ∉ e →
    strings.Split '/' (e ++ flat es) = e :: es := by
  induction es with
  | nil => intro e he; simpa [flat] using Split_no_sep e he
  | cons x es ih =>
    intro e he
    rw [flat_cons, List.cons_append, Split_sep e _ he,
      ih (fun y hy => hes y (by simp [hy])) x (hes x (by simp)).2.1]

theorem dropWhile_head {p : Char → Bool} (c : Char) (l : List Char) (h : p c = false) :
    (c :: l).dropWhile p = c :: l := by
  rw [List.dropWhile_cons, if_neg (by simp [h])]

/-- Go `strings.Trim` takes the first and the last separator off a canonical
directory name. -/
theorem Trim_flat (e : Str) (es : List Str) (hes : ∀ x ∈ e :: es, validElem x) :
    strings.Trim (flat (e :: es) ++ ['/']) '/' = e ++ flat es := by
  have he := hes e (by simp)
  have hlast : (flat (e :: es)).reverse.head? ≠ some '/' := by
    have := HasSuffix_flat hes (by simp)
    intro h
    rw [(HasSuffix_slash _).mpr h] at this
    exact absurd this (by simp)
  obtain ⟨c, e1, hce⟩ : ∃ c e1, e = c :: e1 := by
    cases e with
    | nil => exact absurd rfl he.1
    | cons c e1 => exact ⟨c, e1, rfl⟩
  have hc : c ≠ '/' := fun h => he.2.1 (by rw [hce, h]; simp)
  have h1 : (flat (e :: es) ++ ['/']).dropWhile (· = '/') = e ++ flat es ++ ['/'] := by
    rw [flat_cons, hce]
    simp only [List.cons_append, List.dropWhile_cons, decide_True, if_true]
    rw [if_neg (by simp [hc])]
  have h2 : (e ++ flat es ++ ['/']).reverse = '/' :: (e ++ flat es).reverse := by simp
  have h3 : ∃ d t, (e ++ flat es).reverse = d :: t ∧ d ≠ '/' := by
    rw [flat_cons] at hlast
    cases hr : (e ++ flat es).reverse with
    | nil =>
      have := congrArg List.length hr
      rw [hce] at this
      simp at this
    | cons d t =>
      refine ⟨d, t, rfl, ?_⟩
      intro hd
      apply hlast
      have : ('/' :: e ++ flat es).reverse = d :: (t ++ ['/']) := by
        simp only [List.cons_append, List.reverse_cons, hr]
      rw [this, hd]
      rfl
  obtain ⟨d, t, hdt, hd⟩ := h3
  unfold strings.Trim
  rw [h1, h2, hdt]
  simp only [List.dropWhile_cons, decide_True, if_true]
  rw [if_neg (by simp [hd]), ← hdt, List.reverse_reverse]

theorem inits_eq_cons {α : Type} (l : List α) : l.inits = [] :: l.inits.tail := by
  cases l <;> simp [List.inits]

theorem inits_tail_cons {α : Type} (a : α) (l : List α) :
    (a :: l).inits.tail = [a] :: l.inits.tail.map (fun p => a :: p) := by
  have h := inits_eq_cons l
  simp only [List.inits, List.tail_cons]
  rw [h]
  simp

theorem select_none_of_short {db : Table} {n : Str} (h : ∀ r ∈ db, r.name.length < n.length) :
    selectByName db n = none := by
  simp only [selectByName, List.find?_eq_none, decide_eq_true_eq]
  intro r hr hn
  have := h r hr
  rw [hn] at this
  omega

/-- On a table whose names are all shorter than the next prefix, the walk of
`Mkdir` inserts the directory row of every accumulated prefix. -/
theorem mkdirLoop_fresh (now perm : Nat) (es : List Str) : ∀ (pre : List Str) (db : Table),
    (∀ e ∈ pre, validElem e) → (∀ e ∈ es, validElem e) →
    (∀ r ∈ db, r.name.length ≤ (flat pre).length + 1) →
    mkdirLoop now perm es (flat pre ++ ['/']) db =
      (none, db ++ es.inits.tail.map
        (fun p => ⟨flat (pre ++ p) ++ ['/'], [], Perm perm ||| ModeDir, now⟩)) := by
  induction es with
  | nil => intro pre db _ _ _; simp [mkdirLoop]
  | cons e es ih =>
    intro pre db hpre hes hlen
    have he := hes e (by simp)
    have hpre1 : ∀ x ∈ pre ++ [e], validElem x := by
      intro x hx
      rcases List.mem_append.mp hx with h | h
      · exact hpre x h
      · simp at h; rw [h]; exact he
    have hbase : flat pre ++ ['/'] ++ e ++ ['/'] = flat (pre ++ [e]) ++ ['/'] := by
      rw [flat_snoc]; simp
    have hsel : selectByName db (flat (pre ++ [e]) ++ ['/']) = none := by
      apply select_none_of_short
      intro r hr
      have := hlen r hr
      rw [flat_snoc]
      simp only [List.length_append, List.length_cons, List.length_nil]
      omega
    have hstat := stat_absent now (clearName_flat_slash hpre1) (HasSuffix_append_slash _) hsel
    simp only [mkdirLoop]
    rw [hbase, hstat]
    simp only [ne_eq, not_true_eq_false, if_false]
    rw [insertRow_of_absent _ _ _ _ hsel]
    simp only []
    rw [ih (pre ++ [e]) _ hpre1 (fun x hx => hes x (by simp [hx])) (by
      intro r hr
      rcases List.mem_append.mp hr with h | h
      · have := hlen r h
        rw [flat_snoc]
        simp only [List.length_append, List.length_cons]
        omega
      · simp at h
        rw [h]
        simp)]
    rw [inits_tail_cons]
    simp [List.append_assoc, Function.comp_def]

theorem inits_tail_eq_take {α : Type} (l : List α) :
    l.inits.tail = (List.range l.length).map (fun k => l.take (k + 1)) := by
  induction l with
  | nil => rfl
  | cons a l ih =>
    rw [inits_tail_cons, ih, List.length_cons, List.range_succ_eq_map]
    simp [Function.comp_def]

theorem mem_inits_tail {α : Type} (l : List α) (h : l ≠ []) : l ∈ l.inits.tail := by
  have h1 : l ∈ l.inits := (List.mem_inits l l).mpr (List.prefix_refl l)
  rw [inits_eq_cons] at h1
  rcases List.mem_cons.mp h1 with h2 | h2
  · exact absurd h2 h
  · exact h2

theorem select_some_of_mem {db : Table} {n : Str} (h : ∃ r ∈ db, r.name = n) :
    ∃ r, selectByName db n = some r := by
  obtain ⟨r, hr, hn⟩ := h
  cases hs : selectByName db n with
  | some q => exact ⟨q, rfl⟩
  | none =>
    simp only [selectByName, List.find?_eq_none, decide_eq_true_eq] at hs
    exact absurd hn (hs r hr)

theorem Mkdir_exists {db : Table} {now : Nat} {name n : Str} {perm : Nat} {fi : FileInfo}
    (hc : clearName (if !strings.HasSuffix name ['/'] then name ++ ['/'] else name) = .ok n)
    (hst : stat db now n = .ok fi) : Mkdir db now name perm = (some .ErrExist, db) := by
  unfold Mkdir
  simp only [hc, hst]

/-! ### Well-formed encoded content -/

theorem isHexContent_iff (s : Str) :
    isHexContent s = true ↔ s.length % 2 = 0 ∧ ∀ c ∈ s, c ∈ hexDigits := by
  simp [isHexContent]

theorem hextable_mem : ∀ i : Fin 16, hex.hextable i.val ∈ hexDigits := by
  decide

theorem isHexContent_encode (p : List Byte) : isHexContent (hex.EncodeToString p) = true := by
  rw [isHexContent_iff]
  refine ⟨by rw [hex_encode_length]; omega, ?_⟩
  induction p with
  | nil => intro c hc; simp [hex.EncodeToString] at hc
  | cons x p ih =>
    intro c hc
    simp only [hex.EncodeToString, List.mem_cons] at hc
    rcases hc with h | h | h
    · rw [h]; exact hextable_mem ⟨x.val / 16, by omega⟩
    · rw [h]; exact hextable_mem ⟨x.val % 16, by omega⟩
    · exact ih c h

theorem isHexContent_take (s : Str) (k : Nat) (h : isHexContent s = true) (hk : k % 2 = 0) :
    isHexContent (s.take k) = true := by
  rw [isHexContent_iff] at h ⊢
  refine ⟨by rw [List.length_take]; omega, fun c hc => h.2 c (List.mem_of_mem_take hc)⟩

theorem isHexContent_drop (s : Str) (k : Nat) (h : isHexContent s = true) (hk : k % 2 = 0) :
    isHexContent (s.drop k) = true := by
  rw [isHexContent_iff] at h ⊢
  refine ⟨by rw [List.length_drop]; omega, fun c hc => h.2 c (List.mem_of_mem_drop hc)⟩

theorem isHexContent_append (s t : Str) (hs : isHexContent s = true)
    (ht : isHexContent t = true) : isHexContent (s ++ t) = true := by
  rw [isHexContent_iff] at hs ht ⊢
  refine ⟨by rw [List.length_append]; omega, ?_⟩
  intro c hc
  rcases List.mem_append.mp hc with h | h
  · exact hs.2 c h
  · exact ht.2 c h

theorem fromHexChar_digit : ∀ c ∈ hexDigits, (hex.fromHexChar c).isSome = true := by
  decide

/-- Well-formed encoded content can be decoded. -/
theorem decode_of_isHexContent : ∀ (s : Str), isHexContent s = true →
    ∃ b, hex.DecodeString s = .ok b
  | [], _ => ⟨[], rfl⟩
  | [c], h => by
    rw [isHexContent_iff] at h
    simp at h
  | a :: b :: s, h => by
    rw [isHexContent_iff] at h
    have ha := fromHexChar_digit a (h.2 a (by simp))
    have hb := fromHexChar_digit b (h.2 b (by simp))
    obtain ⟨x, hx⟩ := Option.isSome_iff_exists.mp ha
    obtain ⟨y, hy⟩ := Option.isSome_iff_exists.mp hb
    have hs : isHexContent s = true := by
      rw [isHexContent_iff]
      refine ⟨?_, fun c hc => h.2 c (by simp [hc])⟩
      have := h.1
      simp only [List.length_cons] at this
      omega
    obtain ⟨bs, hbs⟩ := decode_of_isHexContent s hs
    exact ⟨Fin.ofNat (x * 16 + y) :: bs, by simp only [hex.DecodeString, hx, hy, hbs]⟩

theorem sqlSubstr_one_int (s : Str) (len : Int) : sqlSubstr s 1 len = s.take len.toNat := by
  unfold sqlSubstr
  split
  · rename_i h
    have : len.toNat = 0 := by omega
    rw [this]; rfl
  · simp

theorem wrap64_even (x : Int) : (wrap64 (x * 2)).toNat % 2 = 0 := by
  unfold wrap64
  omega

theorem wrap64_even_nat (n : Nat) :
    (wrap64 ((n : Int) * 2)).toNat % 2 = 0 ∧ (wrap64 ((n : Int) * 2)).toNat ≤ 2 * n := by
  unfold wrap64
  omega

theorem hexTable_iff (db : Table) :
    hexTable db = true ↔ ∀ r ∈ db, isHexContent r.content = true := by
  simp [hexTable]

theorem hexTable_insertRow {db db1 : Table} {name : Str} {mode now : Nat}
    (h : insertRow db name mode now = .ok db1) (hdb : hexTable db = true) :
    hexTable db1 = true := by
  obtain ⟨h1, _⟩ := insertRow_ok h
  rw [hexTable_iff] at hdb ⊢
  intro r hr
  rw [h1] at hr
  rcases List.mem_append.mp hr with h2 | h2
  · exact hdb r h2
  · simp only [List.mem_singleton] at h2
    rw [h2]
    rfl

theorem hexTable_mkdirLoop (now perm : Nat) (elems : List Str) : ∀ (base : Str) (db : Table),
    hexTable db = true → hexTable (mkdirLoop now perm elems base db).2 = true := by
  induction elems with
  | nil => intro base db h; simpa [mkdirLoop] using h
  | cons e elems ih =>
    intro base db h
    simp only [mkdirLoop]
    split
    · exact h
    · split
      · exact h
      · split
        · exact h
        · rename_i db1 hins
          exact ih _ _ (hexTable_insertRow hins h)

theorem hexTable_Mkdir (db : Table) (now : Nat) (name : Str) (perm : Nat)
    (h : hexTable db = true) : hexTable (Mkdir db now name perm).2 = true := by
  unfold Mkdir
  dsimp only
  split
  · exact h
  · split
    · exact h
    · exact hexTable_mkdirLoop _ _ _ _ _ h

/-- The rows left by `removeAll` are rows of the table. -/
theorem removeAll_subset (db : Table) (now : Nat) (name : Str) :
    ∀ r ∈ (removeAll db now name).2, r ∈ db := by
  intro r hr
  unfold removeAll at hr
  split at hr
  · exact hr
  · split at hr
    · exact hr
    · split at hr
      · exact (List.mem_filter.mp hr).1
      · exact (List.mem_filter.mp hr).1

theorem hexTable_removeAll (db : Table) (now : Nat) (name : Str) (h : hexTable db = true) :
    hexTable (removeAll db now name).2 = true := by
  rw [hexTable_iff] at h ⊢
  exact fun r hr => h r (removeAll_subset db now name r hr)

theorem hexTable_OpenFile (db : Table) (now : Nat) (name : Str) (flag perm : Nat)
    (h : hexTable db = true) : hexTable (OpenFile db now name flag perm).2 = true := by
  unfold OpenFile
  split
  · exact h
  · rename_i n hcn
    split
    · split
      · exact h
      · split
        · exact h
        · dsimp only
          have hstep : ∀ (step : Option Err × Table), hexTable step.2 = true →
              hexTable (match step with
                | (some e, db1) => ((.error e : Except Err File), db1)
                | (none, db1) =>
                  match insertRow db1 n (Perm perm) now with
                  | .error e => (.error e, db1)
                  | .ok db2 => (.ok ⟨n, 0, none⟩, db2)).2 = true := by
            intro step hstep
            obtain ⟨e, db1⟩ := step
            cases e with
            | some e => exact hstep
            | none =>
              dsimp only
              split
              · exact hstep
              · rename_i db2 hins
                exact hexTable_insertRow hins hstep
          apply hstep
          split
          · split
            · exact h
            · exact hexTable_removeAll db now n h
          · exact h
    · split
      · exact h
      · exact h

/-- The rows after `update ... set name` have the content and mode of rows
before. -/
theorem updateName_content {db db1 : Table} {newName oldName : Str}
    (h : updateName db newName oldName = .ok db1) :
    ∀ r ∈ db1, ∃ q ∈ db, q.content = r.content ∧ q.mode = r.mode := by
  intro r hr
  rcases updateName_ok h with hup | hup
  · subst hup; exact ⟨r, hr, rfl, rfl⟩
  · subst hup
    obtain ⟨q, hq, hqr⟩ := List.mem_map.mp hr
    refine ⟨q, hq, ?_⟩
    by_cases hn : q.name = oldName
    · rw [if_pos hn] at hqr; rw [← hqr]; exact ⟨rfl, rfl⟩
    · rw [if_neg hn] at hqr; rw [← hqr]; exact ⟨rfl, rfl⟩

theorem hexTable_Rename (db : Table) (now : Nat) (oldName newName : Str)
    (h : hexTable db = true) : hexTable (Rename db now oldName newName).2 = true := by
  unfold Rename
  split
  · exact h
  · split
    · exact h
    · split
      · exact h
      · dsimp only
        split
        · exact h
        · split
          · exact h
          · rename_i db1 hup
            rw [hexTable_iff] at h ⊢
            intro r hr
            obtain ⟨q, hq, hqc, _⟩ := updateName_content hup r hr
            rw [← hqc]
            exact h q hq

theorem hexTable_Write (f : File) (db : Table) (p : List Byte) (h : hexTable db = true) :
    hexTable (f.Write db p).2.2 = true := by
  rw [hexTable_iff] at h ⊢
  intro r hr
  simp only [File.Write, updateContent] at hr
  obtain ⟨q, hq, hqr⟩ := List.mem_map.mp hr
  have hqc := h q hq
  rw [← hqr]
  split
  · show isHexContent (sqlSubstr q.content 1 (wrap64 (f.off * 2)) ++ hex.EncodeToString p) = true
    rw [sqlSubstr_one_int]
    exact isHexContent_append _ _ (isHexContent_take _ _ hqc (wrap64_even f.off))
      (isHexContent_encode p)
  · exact hqc

theorem hexTable_apply (db : Table) (op : Op) (h : hexTable db = true) :
    hexTable (op.apply db) = true := by
  cases op with
  | mkdir now name perm => exact hexTable_Mkdir db now name perm h
  | openFile now name flag perm => exact hexTable_OpenFile db now name flag perm h
  | removeAll now name => exact hexTable_removeAll db now name h
  | rename now o n => exact hexTable_Rename db now o n h
  | write f p => exact hexTable_Write f db p h

theorem hexTable_run (ops : List Op) : ∀ (db : Table), hexTable db = true →
    hexTable (run db ops) = true := by
  induction ops with
  | nil => intro db h; exact h
  | cons op ops ih =>
    intro db h
    simp only [run, List.foldl_cons]
    exact ih _ (hexTable_apply db op h)

theorem mem_of_select {db : Table} {n : Str} {r : Row} (h : selectByName db n = some r) :
    r ∈ db := List.mem_of_find?_eq_some h

/-- On a table with well-formed content, `File.Read` at an offset from 0 to below
`2^62` does not fail in `hex.DecodeString` and reads at most the length of the
buffer. -/
theorem Read_hexTable (f : File) (db : Table) (len : Nat) (hdb : hexTable db = true)
    (h0 : 0 ≤ f.off) (h1 : f.off < 2 ^ 62) :
    (f.Read db len).1.2 ≠ some .hexError ∧ (f.Read db len).1.1 ≤ len ∧
      (f.Read db len).2.1.length ≤ len := by
  cases hsel : selectByName db f.name with
  | none =>
    have : f.Read db len = ((0, some .ErrInvalid), [], f) := by
      unfold File.Read; rw [hsel]
    rw [this]
    exact ⟨by simp, Nat.zero_le _, Nat.zero_le _⟩
  | some r =>
    by_cases hd : IsDir r.mode = true
    · have : f.Read db len = ((0, some .ErrInvalid), [], f) := by
        unfold File.Read; rw [hsel]; exact if_pos hd
      rw [this]
      exact ⟨by simp, Nat.zero_le _, Nat.zero_le _⟩
    · have hd1 : IsDir r.mode = false := by simpa using hd
      have hrc := (hexTable_iff db).mp hdb r (mem_of_select hsel)
      have hpos : wrap64 (1 + wrap64 (f.off * 2)) = ((2 * f.off.toNat : Nat) : Int) + 1 := by
        unfold wrap64; omega
      obtain ⟨hev, hle⟩ := wrap64_even_nat len
      have hsub : sqlSubstr r.content (((2 * f.off.toNat : Nat) : Int) + 1)
          (wrap64 ((len : Int) * 2)) =
          (r.content.drop (2 * f.off.toNat)).take (wrap64 ((len : Int) * 2)).toNat := by
        unfold sqlSubstr
        split
        · rename_i hlt
          have : (wrap64 ((len : Int) * 2)).toNat = 0 := by omega
          rw [this]; rfl
        · have e : (((2 * f.off.toNat : Nat) : Int) + 1 - 1).toNat = 2 * f.off.toNat := by omega
          rw [if_pos (by omega), e]
      have hhex : isHexContent ((r.content.drop (2 * f.off.toNat)).take
          (wrap64 ((len : Int) * 2)).toNat) = true :=
        isHexContent_take _ _ (isHexContent_drop _ _ hrc (by omega)) hev
      obtain ⟨b, hb⟩ := decode_of_isHexContent _ hhex
      have hbl := hex_decode_length _ _ hb
      have hblen : b.length ≤ len := by
        have : ((r.content.drop (2 * f.off.toNat)).take
          (wrap64 ((len : Int) * 2)).toNat).length ≤ (wrap64 ((len : Int) * 2)).toNat :=
          List.length_take_le _ _
        omega
      rw [Read_eq f db len r b hsel hd1 (by rw [hpos, hsub]; exact hb)]
      split
      · exact ⟨by simp, Nat.zero_le _, Nat.zero_le _⟩
      · exact ⟨by simp, hblen, by rw [List.length_take]; omega⟩

/-! ### Patterns of `like` and the names they match -/

theorem slashWeight_le_cons (c : Char) (s : Str) : slashWeight s ≤ slashWeight (c :: s) := by
  simp only [slashWeight]
  split <;> omega

theorem slashWeight_le_append (u s : Str) : slashWeight s ≤ slashWeight (u ++ s) := by
  induction u with
  | nil => simp
  | cons c u ih => exact Nat.le_trans ih (slashWeight_le_cons c (u ++ s))

theorem slashWeight_pos (s : Str) (h : s ≠ []) : 1 ≤ slashWeight s := by
  cases s with
  | nil => exact absurd rfl h
  | cons c s =>
    simp only [slashWeight]
    split <;> omega

/-- A pattern matches only names of at least its weight. -/
theorem patWeight_le : ∀ (p s : List Char), sqlLike p s = true → patWeight p ≤ slashWeight s
  | [], s, h => by simp [patWeight]
  | [c], s, h => by
    unfold sqlLike at h
    unfold patWeight
    by_cases h1 : c = '%'
    · rw [if_pos h1]; exact Nat.zero_le _
    · rw [if_neg h1] at h ⊢
      by_cases h2 : c = '_'
      · rw [if_pos h2] at h ⊢
        cases s with
        | nil => simp at h
        | cons d t =>
          have := slashWeight_pos (d :: t) (by simp)
          have hp : patWeight [] = 0 := rfl
          rw [hp]
          omega
      · rw [if_neg h2] at h ⊢
        by_cases h3 : c = '\\'
        · rw [if_pos h3] at h ⊢
          simp only [decide_eq_true_eq] at h
          rw [h]
          decide
        · rw [if_neg h3] at h ⊢
          cases s with
          | nil => simp at h
          | cons d t =>
            simp only [Bool.and_eq_true, decide_eq_true_eq] at h
            have hp : patWeight [] = 0 := rfl
            rw [h.1, hp, slashWeight]
            by_cases hq : c = '/'
            · rw [if_pos hq, if_pos hq]; omega
            · rw [if_neg hq, if_neg hq]; omega
  | c :: q :: ps, s, h => by
    unfold sqlLike at h
    unfold patWeight
    by_cases h1 : c = '%'
    · rw [if_pos h1] at h ⊢
      obtain ⟨t, ht, hm⟩ := List.any_eq_true.mp h
      obtain ⟨u, hu⟩ := (List.mem_tails t s).mp ht
      have := patWeight_le (q :: ps) t hm
      rw [← hu]
      exact Nat.le_trans this (slashWeight_le_append u t)
    · rw [if_neg h1] at h ⊢
      by_cases h2 : c = '_'
      · rw [if_pos h2] at h ⊢
        cases s with
        | nil => simp at h
        | cons d t =>
          have h4 := patWeight_le (q :: ps) t h
          have := slashWeight_le_cons d t
          have := slashWeight_pos (d :: t) (by simp)
          omega
      · rw [if_neg h2] at h ⊢
        by_cases h3 : c = '\\'
        · rw [if_pos h3] at h ⊢
          cases s with
          | nil => simp at h
          | cons d t =>
            simp only [Bool.and_eq_true, decide_eq_true_eq] at h
            have h4 := patWeight_le ps t h.2
            show (if q = '/' then patWeight ps + 2 else max (patWeight ps) 1) ≤ _
            rw [h.1, slashWeight]
            by_cases hq : q = '/'
            · rw [if_pos hq, if_pos hq]; omega
            · rw [if_neg hq, if_neg hq]; omega
        · rw [if_neg h3] at h ⊢
          cases s with
          | nil => simp at h
          | cons d t =>
            simp only [Bool.and_eq_true, decide_eq_true_eq] at h
            have h4 := patWeight_le (q :: ps) t h.2
            rw [h.1, slashWeight]
            by_cases hq : c = '/'
            · rw [if_pos hq, if_pos hq]; omega
            · rw [if_neg hq, if_neg hq]; omega

theorem Replace_cons_pct (n : Str) :
    strings.Replace ('%' :: n) '%' ['\\', '%'] = '\\' :: '%' :: strings.Replace n '%' ['\\', '%'] := by
  simp [strings.Replace, List.flatMap_cons]

theorem Replace_cons_other (c : Char) (n : Str) (h : c ≠ '%') :
    strings.Replace (c :: n) '%' ['\\', '%'] = c :: strings.Replace n '%' ['\\', '%'] := by
  simp [strings.Replace, List.flatMap_cons, h]

theorem patWeight_pct (ps : List Char) : patWeight ('%' :: ps) = patWeight ps := by
  rw [patWeight.eq_def]
  simp

theorem patWeight_esc (q : Char) (qs : List Char) :
    patWeight ('\\' :: q :: qs) = if q = '/' then patWeight qs + 2 else max (patWeight qs) 1 := by
  rw [patWeight.eq_def]
  simp

theorem patWeight_slash (ps : List Char) : patWeight ('/' :: ps) = patWeight ps + 2 := by
  rw [patWeight.eq_def]
  simp

theorem patWeight_other (c : Char) (ps : List Char) (h1 : c ≠ '%') (h2 : c ≠ '\\')
    (h3 : c ≠ '/') : patWeight (c :: ps) = max (patWeight ps) 1 := by
  rw [patWeight.eq_def]
  simp only []
  rw [if_neg h1]
  by_cases h4 : c = '_'
  · rw [if_pos h4]
  · rw [if_neg h4, if_neg h2, if_neg h3]

/-- The pattern that `removeAll` and `Readdir` make of a name has at least the
weight of the name. -/
theorem slashWeight_le_pattern : ∀ n : Str,
    slashWeight n ≤ patWeight (strings.Replace n '%' ['\\', '%'] ++ ['%'])
  | [] => by simp [slashWeight]
  | [c] => by
    by_cases h1 : c = '%'
    · subst h1; decide
    · by_cases h2 : c = '\\'
      · subst h2; decide
      · by_cases h3 : c = '/'
        · subst h3; decide
        · rw [Replace_cons_other c [] h1, List.cons_append, patWeight_other c _ h1 h2 h3,
            slashWeight, if_neg h3]
          have : slashWeight [] = 0 := rfl
          omega
  | c :: y :: n => by
    have ih1 := slashWeight_le_pattern (y :: n)
    have ih2 := slashWeight_le_pattern n
    by_cases h1 : c = '%'
    · subst h1
      rw [Replace_cons_pct, List.cons_append, List.cons_append, patWeight_esc,
        if_neg (by decide), slashWeight, if_neg (by decide)]
      omega
    · by_cases h2 : c = '\\'
      · subst h2
        rw [Replace_cons_other _ _ h1, List.cons_append]
        rw [slashWeight, if_neg (by decide)]
        by_cases hy : y = '%'
        · subst hy
          rw [Replace_cons_pct, List.cons_append, List.cons_append, patWeight_esc,
            if_neg (by decide), patWeight_pct, slashWeight, if_neg (by decide)]
          omega
        · rw [Replace_cons_other y n hy, List.cons_append, patWeight_esc, slashWeight]
          by_cases hq : y = '/'
          · rw [if_pos hq, if_pos hq]; omega
          · rw [if_neg hq, if_neg hq]; omega
      · rw [Replace_cons_other c _ h1, List.cons_append]
        by_cases h3 : c = '/'
        · subst h3
          rw [patWeight_slash, slashWeight, if_pos rfl]
          omega
        · rw [patWeight_other c _ h1 h2 h3, slashWeight, if_neg h3]
          omega

theorem slashWeight_parent (d e : Str) (hd : strings.HasSuffix d ['/'] = true) (he : e ≠ []) :
    slashWeight d < slashWeight (d ++ e) := by
  induction d with
  | nil => exact absurd hd (by decide)
  | cons c d ih =>
    by_cases hdn : d = []
    · subst hdn
      have hc : c = '/' := by
        rw [HasSuffix_slash] at hd
        simpa using hd
      subst hc
      have := slashWeight_pos e he
      have h0 : slashWeight [] = 0 := rfl
      show slashWeight ['/'] < slashWeight ('/' :: e)
      rw [slashWeight, if_pos rfl, h0, slashWeight, if_pos rfl]
      omega
    · have hd1 : strings.HasSuffix d ['/'] = true := by
        rw [HasSuffix_slash] at hd ⊢
        rw [List.reverse_cons] at hd
        cases hr : d.reverse with
        | nil => simp at hr; exact absurd hr hdn
        | cons x t => rw [hr] at hd; simpa using hd
      have := ih hd1
      have hpos := slashWeight_pos d hdn
      rw [List.cons_append, slashWeight, slashWeight]
      by_cases hc : c = '/'
      · rw [if_pos hc, if_pos hc]; omega
      · rw [if_neg hc, if_neg hc]; omega

/-- The pattern that `removeAll` makes of a canonical name without trailing
separator does not match the name of its parent directory. -/
theorem pattern_not_parent (name n : Str) (hc : clearName name = .ok n)
    (hs : strings.HasSuffix n ['/'] = false) :
    sqlLike (strings.Replace n '%' ['\\', '%'] ++ ['%']) (path.Split n).1 = false := by
  obtain ⟨_, hsd, e, hn, he, _⟩ := clearName_parent name n hc hs
  rw [Bool.eq_false_iff]
  intro hm
  have h1 := patWeight_le _ _ hm
  have h2 := slashWeight_le_pattern n
  have h3 := slashWeight_parent (path.Split n).1 e hsd he
  rw [← hn] at h3
  omega

theorem sqlLike_pct (ps s : List Char) :
    sqlLike ('%' :: ps) s = s.tails.any (fun t => sqlLike ps t) := by
  rw [sqlLike.eq_def]
  simp

theorem sqlLike_one (c : Char) (ps : List Char) (d : Char) (s : List Char) (h1 : c ≠ '%')
    (h2 : c ≠ '\\') (h : sqlLike (c :: ps) (d :: s) = true) : sqlLike ps s = true := by
  unfold sqlLike at h
  rw [if_neg h1] at h
  by_cases h3 : c = '_'
  · rw [if_pos h3] at h
    exact h
  · rw [if_neg h3, if_neg h2] at h
    simp only [Bool.and_eq_true] at h
    exact h.2

theorem sqlLike_one_ext (c : Char) (ps : List Char) (d : Char) (s s1 : List Char) (h1 : c ≠ '%')
    (h2 : c ≠ '\\') (h : sqlLike (c :: ps) (d :: s) = true) (h4 : sqlLike ps s1 = true) :
    sqlLike (c :: ps) (d :: s1) = true := by
  unfold sqlLike at h ⊢
  rw [if_neg h1] at h ⊢
  by_cases h3 : c = '_'
  · rw [if_pos h3]
    exact h4
  · rw [if_neg h3, if_neg h2] at h ⊢
    simp only [Bool.and_eq_true] at h ⊢
    exact ⟨h.1, h4⟩

theorem sqlLike_esc (q : Char) (qs : List Char) (d : Char) (s : List Char) :
    sqlLike ('\\' :: q :: qs) (d :: s) = (decide (d = q) && sqlLike qs s) := by
  rw [sqlLike.eq_def]
  simp

theorem sqlLike_pct_tail (ps v u : List Char) (h : sqlLike ps u = true) :
    sqlLike ('%' :: ps) (v ++ u) = true := by
  rw [sqlLike_pct, List.any_eq_true]
  exact ⟨u, (List.mem_tails _ _).mpr (List.suffix_append v u), h⟩

theorem sqlLike_any (s : List Char) : sqlLike ['%'] s = true := by
  have := sqlLike_pct_tail [] s [] (by simp [sqlLike])
  simpa using this

/-- A name matched by a pattern that ends with the wildcard `%` stays matched when
it is extended, unless the last `%` of the pattern is escaped; the matched name
ends with `%` then. -/
theorem sqlLike_extend : ∀ (p s : List Char), sqlLike (p ++ ['%']) s = true →
    (∀ t, sqlLike (p ++ ['%']) (s ++ t) = true) ∨ ∃ v, s = v ++ ['%']
  | [], s, _ => Or.inl (fun t => sqlLike_any (s ++ t))
  | [c], s, h => by
    by_cases h1 : c = '%'
    · subst h1
      exact Or.inl (fun t => sqlLike_pct_tail ['%'] [] (s ++ t) (sqlLike_any _))
    · cases s with
      | nil => rw [List.cons_append, sqlLike_nil c _ h1] at h; exact absurd h (by simp)
      | cons d s =>
        by_cases h2 : c = '\\'
        · subst h2
          right
          rw [List.cons_append, List.nil_append, sqlLike_esc] at h
          simp only [Bool.and_eq_true, decide_eq_true_eq, sqlLike, List.isEmpty_iff] at h
          exact ⟨[], by rw [h.1, h.2]; rfl⟩
        · left
          intro t
          exact sqlLike_one_ext c _ d s (s ++ t) h1 h2 h (sqlLike_any _)
  | c :: q :: ps, s, h => by
    have ih1 := sqlLike_extend (q :: ps)
    have ih2 := sqlLike_extend ps
    by_cases h1 : c = '%'
    · subst h1
      rw [List.cons_append, sqlLike_pct, List.any_eq_true] at h
      obtain ⟨u, hu, hm⟩ := h
      obtain ⟨v, hv⟩ := (List.mem_tails u s).mp hu
      rcases ih1 u hm with hx | ⟨w, hw⟩
      · left
        intro t
        rw [← hv, List.append_assoc]
        exact sqlLike_pct_tail _ v (u ++ t) (hx t)
      · right
        exact ⟨v ++ w, by rw [← hv, hw, List.append_assoc]⟩
    · cases s with
      | nil => rw [List.cons_append, sqlLike_nil c _ h1] at h; exact absurd h (by simp)
      | cons d s =>
        by_cases h2 : c = '\\'
        · subst h2
          rw [List.cons_append, List.cons_append, sqlLike_esc] at h
          simp only [Bool.and_eq_true, decide_eq_true_eq] at h
          rcases ih2 s h.2 with hx | ⟨w, hw⟩
          · left
            intro t
            rw [List.cons_append, List.cons_append, List.cons_append, sqlLike_esc]
            simp only [Bool.and_eq_true, decide_eq_true_eq]
            exact ⟨h.1, hx t⟩
          · right
            exact ⟨d :: w, by rw [hw]; rfl⟩
        · have hm := sqlLike_one c _ d s h1 h2 h
          rcases ih1 s hm with hx | ⟨w, hw⟩
          · left
            intro t
            exact sqlLike_one_ext c _ d s (s ++ t) h1 h2 h (hx t)
          · right
            exact ⟨d :: w, by rw [hw]; rfl⟩

theorem dropWhile_head_false {p : Char → Bool} : ∀ (l : List Char) (a : Char) (t : List Char),
    l.dropWhile p = a :: t → p a = false
  | [], a, t, h => by simp at h
  | c :: l, a, t, h => by
    rw [List.dropWhile_cons] at h
    by_cases hc : p c = true
    · rw [if_pos hc] at h
      exact dropWhile_head_false l a t h
    · rw [if_neg hc] at h
      simp only [List.cons.injEq] at h
      rw [← h.1]
      simpa using hc

/-- The name of a parent directory is empty or ends with the separator. -/
theorem parentName_last (name : Str) :
    parentName name = [] ∨ ∃ x, parentName name = x ++ ['/'] := by
  unfold parentName path.Split
  simp only []
  cases hd : (strings.TrimRight name '/').reverse.dropWhile (· ≠ '/') with
  | nil => left; rfl
  | cons a t =>
    right
    have := dropWhile_head_false _ a t hd
    simp only [ne_eq, decide_not, Bool.not_eq_false', decide_eq_true_eq] at this
    exact ⟨t.reverse, by rw [this]; simp⟩

/-- A name starts with the name of its parent directory. -/
theorem parentName_prefix (name : Str) : ∃ t, name = parentName name ++ t := by
  unfold parentName path.Split strings.TrimRight
  simp only [List.reverse_reverse]
  refine ⟨((name.reverse.dropWhile (· = '/')).takeWhile (· ≠ '/')).reverse ++
    (name.reverse.takeWhile (· = '/')).reverse, ?_⟩
  rw [← List.append_assoc, ← List.reverse_append, List.takeWhile_append_dropWhile,
    ← List.reverse_append, List.takeWhile_append_dropWhile, List.reverse_reverse]

theorem TrimRight_snoc (s : Str) (c : Char) (hc : c ≠ '/') :
    strings.TrimRight (s ++ [c]) '/' = s ++ [c] := by
  simp [strings.TrimRight, hc]

theorem TrimRight_slash (s : Str) :
    strings.TrimRight (s ++ ['/']) '/' = strings.TrimRight s '/' := by
  simp [strings.TrimRight]

/-- The parent directory of `d/e` and of `d/e/`, for a segment `e`, is `d/`. -/
theorem parentName_segment (d e : Str) (he : e ≠ []) (hs : '/' ∉ e) :
    parentName (d ++ '/' :: e) = d ++ ['/'] ∧ parentName (d ++ '/' :: e ++ ['/']) = d ++ ['/'] := by
  obtain ⟨x, c, hx⟩ := exists_snoc e he
  have hc : c ≠ '/' := fun h => hs (by rw [hx, h]; simp)
  have h1 : strings.TrimRight (d ++ '/' :: e) '/' = d ++ '/' :: e := by
    have : d ++ '/' :: e = (d ++ '/' :: x) ++ [c] := by rw [hx]; simp
    rw [this, TrimRight_snoc _ _ hc]
  constructor
  · unfold parentName
    rw [h1, Split_append d e hs]
  · unfold parentName
    rw [TrimRight_slash, h1, Split_append d e hs]

/-! ### Parent-closed tables -/

theorem parentClosed_iff (db : Table) : parentClosed db = true ↔
    (∃ r ∈ db, r.name = ['/']) ∧
      ∀ r ∈ db, r.name = ['/'] ∨ ∃ q ∈ db, q.name = parentName r.name := by
  simp [parentClosed, hasRoot]

theorem parentClosed_snoc (db : Table) (r : Row) (h : parentClosed db = true)
    (hp : ∃ q ∈ db, q.name = parentName r.name) : parentClosed (db ++ [r]) = true := by
  rw [parentClosed_iff] at h ⊢
  obtain ⟨⟨r0, hr0, hn0⟩, hall⟩ := h
  refine ⟨⟨r0, List.mem_append_left _ hr0, hn0⟩, ?_⟩
  intro x hx
  rcases List.mem_append.mp hx with hx | hx
  · rcases hall x hx with h1 | ⟨q, hq, hqn⟩
    · exact Or.inl h1
    · exact Or.inr ⟨q, List.mem_append_left _ hq, hqn⟩
  · simp only [List.mem_singleton] at hx
    subst hx
    obtain ⟨q, hq, hqn⟩ := hp
    exact Or.inr ⟨q, List.mem_append_left _ hq, hqn⟩

theorem parentClosed_filter (db : Table) (keep : Row → Bool) (h : parentClosed db = true)
    (hroot : ∀ r, r.name = ['/'] → keep r = true)
    (hpar : ∀ r q, keep r = true → q.name = parentName r.name → keep q = true) :
    parentClosed (db.filter keep) = true := by
  rw [parentClosed_iff] at h ⊢
  obtain ⟨⟨r0, hr0, hn0⟩, hall⟩ := h
  refine ⟨⟨r0, List.mem_filter.mpr ⟨hr0, hroot r0 hn0⟩, hn0⟩, ?_⟩
  intro x hx
  obtain ⟨hx1, hx2⟩ := List.mem_filter.mp hx
  rcases hall x hx1 with h1 | ⟨q, hq, hqn⟩
  · exact Or.inl h1
  · exact Or.inr ⟨q, List.mem_filter.mpr ⟨hq, hpar x q hx2 hqn⟩, hqn⟩

/-- Deleting by a pattern that ends with the wildcard and does not match the root
keeps a table parent-closed: with a directory its whole subtree is deleted. -/
theorem parentClosed_deleteLike (db : Table) (p : List Char) (h : parentClosed db = true)
    (hroot : sqlLike (p ++ ['%']) ['/'] = false) :
    parentClosed (deleteLike db (p ++ ['%'])) = true := by
  unfold deleteLike
  apply parentClosed_filter db _ h
  · intro r hr
    rw [hr, hroot]
    rfl
  · intro r q hr hq
    cases hm : sqlLike (p ++ ['%']) q.name with
    | false => rfl
    | true =>
      exfalso
      rcases sqlLike_extend p q.name hm with hx | ⟨v, hv⟩
      · obtain ⟨t, ht⟩ := parentName_prefix r.name
        have := hx t
        rw [hq, ← ht] at this
        rw [this] at hr
        exact absurd hr (by simp)
      · rw [hq] at hv
        rcases parentName_last r.name with h0 | ⟨x, hx⟩
        · rw [h0] at hv
          exact absurd hv (by simp)
        · rw [hx] at hv
          have := List.append_inj_right' hv rfl
          simp at this

/-- Deleting the row of a name that does not end with the separator keeps a table
parent-closed. -/
theorem parentClosed_deleteByName (db : Table) (x : Str) (c : Char) (hc : c ≠ '/')
    (h : parentClosed db = true) : parentClosed (deleteByName db (x ++ [c])) = true := by
  unfold deleteByName
  apply parentClosed_filter db _ h
  · intro r hr
    simp only [Bool.not_eq_true', decide_eq_false_iff_not]
    intro h1
    rw [hr] at h1
    have h2 : ['/'] = [] ++ ['/'] := rfl
    rw [h2] at h1
    have := List.append_inj_right' h1 rfl
    simp only [List.cons.injEq, and_true] at this
    exact hc this.symm
  · intro r q _ hq
    simp only [Bool.not_eq_true', decide_eq_false_iff_not]
    intro h1
    rw [hq] at h1
    rcases parentName_last r.name with h0 | ⟨y, hy⟩
    · rw [h0] at h1
      exact absurd h1 (by simp)
    · rw [hy] at h1
      have := List.append_inj_right' h1 rfl
      simp only [List.cons.injEq, and_true] at this
      exact hc this.symm

theorem slashWeight_slashed (d : Str) (hd : strings.HasSuffix d ['/'] = true) :
    2 ≤ slashWeight d := by
  rw [HasSuffix_slash] at hd
  cases hr : d.reverse with
  | nil => rw [hr] at hd; simp at hd
  | cons c t =>
    rw [hr] at hd
    simp only [List.head?_cons, Option.some.injEq] at hd
    have hd1 : d = t.reverse ++ ['/'] := by
      have := congrArg List.reverse hr
      simpa [hd] using this
    have := slashWeight_le_append t.reverse ['/']
    rw [← hd1] at this
    have h2 : slashWeight ['/'] = 2 := by decide
    omega

/-- The pattern that `removeAll` makes of a canonical name without trailing
separator does not match the root. -/
theorem pattern_not_root (name n : Str) (hc : clearName name = .ok n)
    (hs : strings.HasSuffix n ['/'] = false) :
    sqlLike (strings.Replace n '%' ['\\', '%'] ++ ['%']) ['/'] = false := by
  obtain ⟨_, hsd, e, hn, he, _⟩ := clearName_parent name n hc hs
  rw [Bool.eq_false_iff]
  intro hm
  have h1 := patWeight_le _ _ hm
  have h2 := slashWeight_le_pattern n
  have h3 := slashWeight_parent (path.Split n).1 e hsd he
  have h4 := slashWeight_slashed _ hsd
  have h5 : slashWeight ['/'] = 2 := by decide
  rw [← hn] at h3
  omega

/-- The removal of a canonical name without trailing separator, as `OpenFile` calls
it, keeps a table parent-closed and keeps the row of the parent directory. -/
theorem parentClosed_removeAll (db : Table) (now : Nat) (name n : Str)
    (hc : clearName name = .ok n) (hs : strings.HasSuffix n ['/'] = false)
    (h : parentClosed db = true) :
    parentClosed (removeAll db now n).2 = true ∧
      ∀ q ∈ db, q.name = (path.Split n).1 → q ∈ (removeAll db now n).2 := by
  have hcn := clearName_idem name n hc
  obtain ⟨_, hsd, e, hn, he, hes⟩ := clearName_parent name n hc hs
  cases hst : stat db now n with
  | error err =>
    have : removeAll db now n = (some err, db) := by
      unfold removeAll
      rw [hcn]
      dsimp only
      rw [hst]
    rw [this]
    exact ⟨h, fun q hq _ => hq⟩
  | ok fi =>
    by_cases hd : IsDir fi.mode = true
    · rw [removeAll_dir hcn hst hd]
      refine ⟨parentClosed_deleteLike db _ h (pattern_not_root name n hc hs), ?_⟩
      intro q hq hqn
      unfold deleteLike
      refine List.mem_filter.mpr ⟨hq, ?_⟩
      rw [hqn, pattern_not_parent name n hc hs]
      rfl
    · have hd1 : IsDir fi.mode = false := by simpa using hd
      rw [removeAll_file hcn hst hd1]
      obtain ⟨x, c, hx⟩ := exists_snoc e he
      have hcs : c ≠ '/' := fun hh => hes (by rw [hx, hh]; simp)
      have hn1 : n = ((path.Split n).1 ++ x) ++ [c] := by
        rw [List.append_assoc, ← hx]
        exact hn
      constructor
      · rw [hn1]
        exact parentClosed_deleteByName db _ c hcs h
      · intro q hq hqn
        unfold deleteByName
        refine List.mem_filter.mpr ⟨hq, ?_⟩
        simp only [Bool.not_eq_true', decide_eq_false_iff_not]
        intro h1
        rw [hqn] at h1
        have h2 := congrArg List.length h1
        have h3 := congrArg List.length hn
        have h4 : 0 < e.length := List.length_pos.mpr he
        rw [List.length_append] at h3
        omega

/-- A name given with trailing separator keeps it in `clearName`. -/
theorem clearName_slashed (p n : Str) (hp : strings.HasSuffix p ['/'] = true)
    (h : clearName p = .ok n) : strings.HasSuffix n ['/'] = true := by
  unfold clearName at h
  simp only [hp, Bool.and_true] at h
  by_cases hpre : (!strings.HasPrefix
      (if (!strings.HasSuffix (path.Clean p) ['/']) = true then path.Clean p ++ ['/']
        else path.Clean p) ['/']) = true
  · rw [if_pos hpre] at h
    exact absurd h (by simp)
  · rw [if_neg hpre] at h
    simp only [Except.ok.injEq] at h
    rw [← h]
    by_cases hc : strings.HasSuffix (path.Clean p) ['/'] = true
    · simp only [hc, Bool.not_true, Bool.false_eq_true, if_false]
    · have hc1 : strings.HasSuffix (path.Clean p) ['/'] = false := by simpa using hc
      simp only [hc1, Bool.not_false, if_true]
      exact HasSuffix_append_slash _

theorem select_name {db : Table} {n : Str} {r : Row} (h : selectByName db n = some r) :
    r.name = n := by
  have := List.find?_some h
  simpa using this

/-- The parent directory of a canonical name without trailing separator is the
directory part that `path.Split` gives. -/
theorem parentName_canon (name n : Str) (hc : clearName name = .ok n)
    (hs : strings.HasSuffix n ['/'] = false) : parentName n = (path.Split n).1 := by
  obtain ⟨_, _, e, hn, he, hes⟩ := clearName_parent name n hc hs
  obtain ⟨x, c, hx⟩ := exists_snoc e he
  have hcs : c ≠ '/' := fun hh => hes (by rw [hx, hh]; simp)
  have hn1 : n = ((path.Split n).1 ++ x) ++ [c] := by
    rw [List.append_assoc, ← hx]
    exact hn
  have ht : strings.TrimRight n '/' = n := by
    rw [hn1]
    exact TrimRight_snoc _ c hcs
  unfold parentName
  rw [ht]

/-- The loop of `Mkdir` keeps a table parent-closed when the row of the directory
built so far is present. -/
theorem parentClosed_mkdirLoop (now perm : Nat) (es : List Str) : ∀ (pre : List Str)
    (db : Table), (∀ e ∈ es, validElem e) → parentClosed db = true →
    (∃ q ∈ db, q.name = flat pre ++ ['/']) →
    parentClosed (mkdirLoop now perm es (flat pre ++ ['/']) db).2 = true := by
  induction es with
  | nil => intro pre db _ h _; simpa [mkdirLoop] using h
  | cons e es ih =>
    intro pre db hes h hq
    have he := hes e (by simp)
    have hbase : flat pre ++ ['/'] ++ e ++ ['/'] = flat (pre ++ [e]) ++ ['/'] := by
      rw [flat_snoc]; simp
    simp only [mkdirLoop]
    rw [hbase]
    split
    · exact h
    · split
      · exact h
      · split
        · exact h
        · rename_i db1 hins
          obtain ⟨hdb1, _⟩ := insertRow_ok hins
          have hpar : parentName (flat (pre ++ [e]) ++ ['/']) = flat pre ++ ['/'] := by
            rw [flat_snoc]
            exact (parentName_segment (flat pre) e he.1 he.2.1).2
          have hcl : parentClosed db1 = true := by
            rw [hdb1]
            apply parentClosed_snoc db _ h
            rw [hpar]
            exact hq
          apply ih (pre ++ [e]) db1 (fun x hx => hes x (by simp [hx])) hcl
          rw [hdb1]
          exact ⟨_, List.mem_append_right _ (List.mem_singleton.mpr rfl), rfl⟩

/-- The method `Mkdir` keeps a table parent-closed. -/
theorem parentClosed_Mkdir (db : Table) (now : Nat) (name : Str) (perm : Nat)
    (h : parentClosed db = true) : parentClosed (Mkdir db now name perm).2 = true := by
  have hroot := ((parentClosed_iff db).mp h).1
  have hsl : strings.HasSuffix
      (if (!strings.HasSuffix name ['/']) = true then name ++ ['/'] else name) ['/'] = true := by
    by_cases hc : strings.HasSuffix name ['/'] = true
    · simp only [hc, Bool.not_true, Bool.false_eq_true, if_false]
    · have hc1 : strings.HasSuffix name ['/'] = false := by simpa using hc
      simp only [hc1, Bool.not_false, if_true]
      exact HasSuffix_append_slash _
  unfold Mkdir
  dsimp only
  split
  · exact h
  · rename_i n hcn
    split
    · exact h
    · rename_i err hst
      have hns := clearName_slashed _ n hsl hcn
      obtain ⟨es, hes, hn | ⟨hne, hn⟩⟩ := clearName_ok_flat _ n hcn
      · cases es with
        | nil =>
          exfalso
          have hn1 : n = ['/'] := by rw [hn]; rfl
          obtain ⟨r, hr⟩ := select_some_of_mem hroot
          obtain ⟨fi, hfi, _⟩ := @stat_of_select db now ['/'] r (by decide) hr
          rw [hn1, hfi] at hst
          exact absurd hst (by simp)
        | cons e es1 =>
          have hsplit : strings.Split '/' (strings.Trim n '/') = e :: es1 := by
            rw [hn, Trim_flat e es1 hes,
              Split_flat es1 (fun x hx => hes x (by simp [hx])) e (hes e (by simp)).2.1]
          rw [hsplit]
          have h0 : (['/'] : Str) = flat [] ++ ['/'] := by simp [flat]
          rw [h0]
          exact parentClosed_mkdirLoop now perm (e :: es1) [] db hes h (by rw [← h0]; exact hroot)
      · rw [hn, HasSuffix_flat hes hne] at hns
        exact absurd hns (by simp)

/-- The method `OpenFile` keeps a table parent-closed. -/
theorem parentClosed_OpenFile (db : Table) (now : Nat) (name : Str) (flag perm : Nat)
    (h : parentClosed db = true) : parentClosed (OpenFile db now name flag perm).2 = true := by
  unfold OpenFile
  split
  · exact h
  · rename_i n hcn
    split
    · split
      · exact h
      · rename_i hs
        have hs1 : strings.HasSuffix n ['/'] = false := by simpa using hs
        obtain ⟨hcd, hsd, _⟩ := clearName_parent name n hcn hs1
        split
        · exact h
        · rename_i fi hdir
          dsimp only
          obtain ⟨r, hr⟩ := stat_ok_select hcd hsd hdir
          have hrm := mem_of_select hr
          have hrn : r.name = parentName n := by
            rw [parentName_canon name n hcn hs1]
            exact select_name hr
          have hstep : ∀ (step : Option Err × Table), parentClosed step.2 = true →
              r ∈ step.2 →
              parentClosed (match step with
                | (some e, db1) => ((.error e : Except Err File), db1)
                | (none, db1) =>
                  match insertRow db1 n (Perm perm) now with
                  | .error e => (.error e, db1)
                  | .ok db2 => (.ok ⟨n, 0, none⟩, db2)).2 = true := by
            intro step hstep hmem
            obtain ⟨e, db1⟩ := step
            cases e with
            | some e => exact hstep
            | none =>
              dsimp only
              split
              · exact hstep
              · rename_i db2 hins
                obtain ⟨hdb2, _⟩ := insertRow_ok hins
                rw [hdb2]
                exact parentClosed_snoc db1 _ hstep ⟨r, hmem, hrn⟩
          have hrem := parentClosed_removeAll db now name n hcn hs1 h
          apply hstep
          · split
            · split
              · exact h
              · exact hrem.1
            · exact h
          · split
            · split
              · exact hrm
              · exact hrem.2 r hrm (by rw [hrn, parentName_canon name n hcn hs1])
            · exact hrm
    · split
      · exact h
      · exact h

/-! ### The claims -/

/-- C1, at the failing input: after `Mkdir("/a")` on the freshly formatted table
the rows are `/` and `/a/`; then `Mkdir("/a/b/")` returns no error and leaves the
table as it was, so that no directory `/a/b/` exists afterwards (`stat` fails with
`ErrNotExist`). -/
theorem C1_Mkdir_existing_parent :
    run (CreateFS 0) [.mkdir 1 "/a".toList 493] =
        [rootRow 0, ⟨"/a/".toList, [], 2147484141, 1⟩] ∧
      Mkdir [rootRow 0, ⟨"/a/".toList, [], 2147484141, 1⟩] 2 "/a/b/".toList 493 =
        (none, [rootRow 0, ⟨"/a/".toList, [], 2147484141, 1⟩]) ∧
      stat [rootRow 0, ⟨"/a/".toList, [], 2147484141, 1⟩] 3 "/a/b/".toList =
        .error .ErrNotExist := by
  decide

/-- C2, at the failing inputs: in the table made by `Mkdir("/a")` and the
creation of the file `/ab`, `RemoveAll("/a")` on the directory `/a/` also removes
the sibling `/ab`; in the table made by `Mkdir("/a_")` and `Mkdir("/ab")`,
`RemoveAll("/a_/")` on the directory `/a_/` also removes the directory `/ab/`.
Neither removed row has the name of the directory as a literal string prefix. -/
theorem C2_RemoveAll_outside_subtree :
    run (CreateFS 0) [.mkdir 1 "/a".toList 493, .openFile 2 "/ab".toList 64 420] =
        [rootRow 0, ⟨"/a/".toList, [], 2147484141, 1⟩, ⟨"/ab".toList, [], 420, 2⟩] ∧
      stat [rootRow 0, ⟨"/a/".toList, [], 2147484141, 1⟩, ⟨"/ab".toList, [], 420, 2⟩] 3
        "/a".toList = .ok ⟨"a".toList, 0, 2147484141, 1⟩ ∧
      RemoveAll [rootRow 0, ⟨"/a/".toList, [], 2147484141, 1⟩, ⟨"/ab".toList, [], 420, 2⟩] 3
        "/a".toList = (none, [rootRow 0]) ∧
      run (CreateFS 0) [.mkdir 1 "/a_".toList 493, .mkdir 2 "/ab".toList 493] =
        [rootRow 0, ⟨"/a_/".toList, [], 2147484141, 1⟩, ⟨"/ab/".toList, [], 2147484141, 2⟩] ∧
      stat [rootRow 0, ⟨"/a_/".toList, [], 2147484141, 1⟩,
        ⟨"/ab/".toList, [], 2147484141, 2⟩] 3 "/a_/".toList =
          .ok ⟨"a_".toList, 0, 2147484141, 1⟩ ∧
      RemoveAll [rootRow 0, ⟨"/a_/".toList, [], 2147484141, 1⟩,
        ⟨"/ab/".toList, [], 2147484141, 2⟩] 3 "/a_/".toList = (none, [rootRow 0]) := by
  decide

/-- C3: write/read round trip.  For every byte sequence `b` (of a length that fits
`int`) and every table: `OpenFile` with the create flag succeeds when the name is
valid, has no trailing separator, its parent directory exists and nothing exists
at the name; and after every successful `OpenFile` with the create flag, the handle
is at offset 0, `Write(b)` returns `len(b)`, the stored content is the hex encoding
of `b`, of length `2*len(b)`, and resetting the offset to 0 (by `Seek(0, 0)`, which
gives back the handle as opened, or by a fresh `OpenFile`, which gives the same
handle) and reading into a buffer of length `len(b)` yields exactly `b`, with
`len(b)` bytes read, or 0 bytes and `EOF` when `b` is empty. -/
theorem C3_write_read_round_trip (db : Table) (now : Nat) (name : Str) (flag perm : Nat)
    (b : List Byte) (hflag : flag &&& O_CREATE ≠ 0) (hb : 2 * (b.length : Int) < 2 ^ 63) :
    (∀ n fi e, clearName name = .ok n → strings.HasSuffix n ['/'] = false →
        stat db now (path.Split n).1 = .ok fi → stat db now n = .error e →
        ∃ db1, OpenFile db now name flag perm = (.ok ⟨n, 0, none⟩, db1)) ∧
      ∀ f db1, OpenFile db now name flag perm = (.ok f, db1) →
        f.off = 0 ∧
        (f.Write db1 b).1 = (b.length, none) ∧
        (∃ r, selectByName (f.Write db1 b).2.2 f.name = some r ∧
          r.content = hex.EncodeToString b ∧ r.content.length = 2 * b.length) ∧
        ((f.Write db1 b).2.1.Seek (f.Write db1 b).2.2 now 0 0).2 = f ∧
        (∀ now1 perm1, OpenFile (f.Write db1 b).2.2 now1 name 0 perm1 =
          (.ok f, (f.Write db1 b).2.2)) ∧
        f.Read (f.Write db1 b).2.2 b.length =
          if b = [] then ((0, some .EOF), [], f)
          else ((b.length, none), b, { f with off := b.length }) := by
  constructor
  · intro n fi e hc hs hdir hnew
    exact ⟨_, OpenFile_create_new hflag hc hs hdir hnew⟩
  · intro f db1 hopen
    obtain ⟨n, dbx, hc, hf, hins⟩ := OpenFile_create_ok hflag hopen
    obtain ⟨hdb1, hfresh⟩ := insertRow_ok hins
    subst hf
    have hsel1 : selectByName db1 n = some ⟨n, [], Perm perm, now⟩ := by
      rw [hdb1]; exact selectByName_insert _ rfl hfresh
    have hw0 : wrap64 ((0 : Int) * 2) = ((0 : Nat) : Int) := by unfold wrap64; omega
    have hsel2 : selectByName (File.Write ⟨n, 0, none⟩ db1 b).2.2 n =
        some ⟨n, hex.EncodeToString b, Perm perm, now⟩ := by
      simp only [File.Write, selectByName_updateContent, hsel1, hw0, sqlSubstr_one,
        Option.map_some', List.take_zero, List.nil_append]
    refine ⟨rfl, rfl, ⟨_, hsel2, rfl, hex_encode_length b⟩, ?_, ?_, ?_⟩
    · simp only [File.Seek, if_true, File.Write]
      have : wrap64 ((0 : Int) + 0) = 0 := by unfold wrap64; omega
      rw [this]
    · intro now1 perm1
      have hcn := clearName_idem name n hc
      obtain ⟨fi, hst, hmode⟩ := stat_of_select now1 hcn hsel2
      unfold OpenFile
      rw [hc]
      dsimp only
      rw [if_neg (by decide), hst]
      dsimp only
      have hd : IsDir fi.mode = false := by rw [hmode]; exact IsDir_Perm perm
      simp [hd]
    · exact Read_whole _ _ _ b rfl hsel2 rfl (IsDir_Perm perm) hb

/-- C3, at the bytes `01 02 ff` written to the new file `/f` of the freshly
formatted table. -/
theorem C3_write_read_round_trip_witness :
    (∃ db1, OpenFile (CreateFS 0) 1 "/f".toList 64 420 = (.ok ⟨"/f".toList, 0, none⟩, db1)) ∧
      File.Read ⟨"/f".toList, 0, none⟩
          (File.Write ⟨"/f".toList, 0, none⟩
            [rootRow 0, ⟨"/f".toList, [], 420, 1⟩] [1, 2, 255]).2.2 3 =
        ((3, none), [1, 2, 255], ⟨"/f".toList, 3, none⟩) :=
  ⟨(C3_write_read_round_trip (CreateFS 0) 1 "/f".toList 64 420 [1, 2, 255] (by decide)
      (by norm_num)).1 "/f".toList ⟨['/'], 0, 2147484159, 1⟩ .ErrNotExist
      (by decide) (by decide) (by decide) (by decide),
    ((C3_write_read_round_trip (CreateFS 0) 1 "/f".toList 64 420 [1, 2, 255] (by decide)
      (by norm_num)).2 ⟨"/f".toList, 0, none⟩ [rootRow 0, ⟨"/f".toList, [], 420, 1⟩]
      (by decide)).2.2.2.2.2⟩

/-- C4: truncate-and-append write.  For every file row whose stored content
decodes to the bytes `c`, every handle offset `k` with `0 <= k <= len(c)` and every
buffer `p` (with the lengths within `int64`), `File.Write(p)` returns `len(p)`,
moves the offset to `k + len(p)`, leaves the row with a content that decodes to the
first `k` bytes of `c` followed by `p` and has `2*(k + len(p))` characters, with
name, mode and modification time as before, and changes no row of another name. -/
theorem C4_Write_truncate_append (f : File) (db : Table) (r : Row) (c p : List Byte) (k : Nat)
    (hrow : selectByName db f.name = some r) (hdec : hex.DecodeString r.content = .ok c)
    (hoff : f.off = k) (hk : k ≤ c.length)
    (hL : 2 * (c.length : Int) < 2 ^ 63) (hm : (k : Int) + p.length < 2 ^ 63) :
    (f.Write db p).1 = (p.length, none) ∧
      (f.Write db p).2.1 = { f with off := (k : Int) + p.length } ∧
      (∃ r1, selectByName (f.Write db p).2.2 f.name = some r1 ∧
        hex.DecodeString r1.content = .ok (c.take k ++ p) ∧
        r1.content.length = 2 * (k + p.length) ∧
        r1.name = r.name ∧ r1.mode = r.mode ∧ r1.mod_time = r.mod_time) ∧
      (f.Write db p).2.2.length = db.length ∧
      ∀ (i : Nat) (r2 : Row), db[i]? = some r2 → r2.name ≠ f.name →
        (f.Write db p).2.2[i]? = some r2 := by
  have hw1 : wrap64 (f.off * 2) = ((2 * k : Nat) : Int) := by
    rw [hoff, wrap64_eq] <;> push_cast <;> omega
  have hw2 : wrap64 (f.off + p.length) = (k : Int) + p.length := by
    rw [hoff, wrap64_eq] <;> omega
  have hlen := hex_decode_length _ _ hdec
  refine ⟨rfl, ?_, ?_, ?_, ?_⟩
  · simp only [File.Write, hw2]
  · refine ⟨{ r with content := r.content.take (2 * k) ++ hex.EncodeToString p }, ?_, ?_, ?_,
      rfl, rfl, rfl⟩
    · simp only [File.Write, selectByName_updateContent, hrow, hw1, sqlSubstr_one, Option.map_some']
    · exact hex_decode_append _ _ _ _ (hex_decode_take _ _ k hdec) (hex_decode_encode p)
    · simp only [List.length_append, List.length_take, hex_encode_length, hlen]
      omega
  · simp [File.Write, updateContent]
  · intro i r2 h hn
    exact updateContent_frame _ _ _ _ i r2 h hn

/-- C4, at the file `/f` with the four bytes `0a 0b 0c 0d`, offset 1 and the
buffer `ff`: the file is left with the two bytes `0a ff`. -/
theorem C4_Write_truncate_append_witness :
    (File.Write ⟨"/f".toList, 1, none⟩
        [rootRow 0, ⟨"/f".toList, "0a0b0c0d".toList, 420, 1⟩] [255]).1 = (1, none) ∧
      (File.Write ⟨"/f".toList, 1, none⟩
        [rootRow 0, ⟨"/f".toList, "0a0b0c0d".toList, 420, 1⟩] [255]).2.2 =
        [rootRow 0, ⟨"/f".toList, "0aff".toList, 420, 1⟩] :=
  ⟨(C4_Write_truncate_append ⟨"/f".toList, 1, none⟩
      [rootRow 0, ⟨"/f".toList, "0a0b0c0d".toList, 420, 1⟩]
      ⟨"/f".toList, "0a0b0c0d".toList, 420, 1⟩ [10, 11, 12, 13] [255] 1
      (by decide) (by decide) (by decide) (by decide) (by norm_num) (by norm_num)).1,
    by decide⟩

/-- C5: path canonicalisation is idempotent: whenever `clearName` succeeds on a
string with result `r`, `clearName` succeeds on `r` and returns `r` unchanged (also
for results that keep a trailing separator, and for the root). -/
theorem C5_clearName_idempotent (p r : Str) (h : clearName p = .ok r) :
    clearName r = .ok r :=
  clearName_idem p r h

/-- C5, at the path `/a//b/../c`: it is canonicalised to `/a/c`, which is
canonicalised to itself. -/
theorem C5_clearName_idempotent_witness :
    clearName "/a//b/../c".toList = .ok "/a/c".toList ∧
      clearName "/a/c".toList = .ok "/a/c".toList :=
  ⟨by decide, C5_clearName_idempotent "/a//b/../c".toList "/a/c".toList (by decide)⟩

/-- C6, at the failing input: on the freshly formatted table nothing exists at
`/a` (`stat` fails with `ErrNotExist`), and `Rename("/a", "/b")` returns
`ErrExist`, not `ErrNotExist`; the table is unchanged. -/
theorem C6_Rename_missing_source :
    stat (CreateFS 0) 1 "/a".toList = .error .ErrNotExist ∧
      Rename (CreateFS 0) 1 "/a".toList "/b".toList = (some .ErrExist, CreateFS 0) := by
  decide

/-- C7 as stated fails: from the freshly formatted table, `RemoveAll("/")` leaves
a table without a row named `/`, and so does `Rename("/", "/x")`. -/
theorem C7_root_not_kept :
    hasRoot (run (CreateFS 0) [.removeAll 1 "/".toList]) = false ∧
      hasRoot (run (CreateFS 0) [.rename 1 "/".toList "/x".toList]) = false := by
  decide

/-- C7, amended: in every table reached from the freshly formatted table by a
finite sequence of `Mkdir`, `OpenFile`, `RemoveAll`, `Rename` and `Write` calls in
which no `RemoveAll` name and no `Rename` source canonicalises to `/`, a row named
`/` is present. -/
theorem C7_root_kept (now : Nat) (ops : List Op) (h : ∀ op ∈ ops, op.sparesRoot = true) :
    hasRoot (run (CreateFS now) ops) = true :=
  hasRoot_run ops (CreateFS now) h (by simp [hasRoot, CreateFS, rootRow])

/-- C7, amended, at a sequence of five calls. -/
theorem C7_root_kept_witness :
    hasRoot (run (CreateFS 0)
      [.mkdir 1 "/a".toList 493, .openFile 2 "/a/f".toList 64 420,
        .write ⟨"/a/f".toList, 0, none⟩ [1, 2], .rename 3 "/a/f".toList "/a/g".toList,
        .removeAll 4 "/a".toList]) = true :=
  C7_root_kept 0 _ (by decide)

/-- C8 as stated fails: in the table made by the creation of the files `/x`, `/y`
and `/z`, the call `Readdir(1)` on a fresh handle of the root returns `x` and
leaves the cursor at 1; the call `Readdir(0)` that follows returns all three
entries, `x` included, not the two remaining ones. -/
theorem C8_Readdir_returns_all :
    run (CreateFS 0) [.openFile 1 "/x".toList 64 420, .openFile 2 "/y".toList 64 420,
        .openFile 3 "/z".toList 64 420] =
      [rootRow 0, ⟨"/x".toList, [], 420, 1⟩, ⟨"/y".toList, [], 420, 2⟩,
        ⟨"/z".toList, [], 420, 3⟩] ∧
    File.Readdir ⟨"/".toList, 0, none⟩
        [rootRow 0, ⟨"/x".toList, [], 420, 1⟩, ⟨"/y".toList, [], 420, 2⟩,
          ⟨"/z".toList, [], 420, 3⟩] 4 1 =
      (.ok [⟨"x".toList, 0, 420, 1⟩],
        ⟨"/".toList, 1, some [⟨"x".toList, 0, 420, 1⟩, ⟨"y".toList, 0, 420, 2⟩,
          ⟨"z".toList, 0, 420, 3⟩]⟩) ∧
    (File.Readdir ⟨"/".toList, 1, some [⟨"x".toList, 0, 420, 1⟩, ⟨"y".toList, 0, 420, 2⟩,
          ⟨"z".toList, 0, 420, 3⟩]⟩
        [rootRow 0, ⟨"/x".toList, [], 420, 1⟩, ⟨"/y".toList, [], 420, 2⟩,
          ⟨"/z".toList, [], 420, 3⟩] 4 0).1 =
      .ok [⟨"x".toList, 0, 420, 1⟩, ⟨"y".toList, 0, 420, 2⟩, ⟨"z".toList, 0, 420, 3⟩] ∧
    (File.Readdir ⟨"/".toList, 1, some [⟨"x".toList, 0, 420, 1⟩, ⟨"y".toList, 0, 420, 2⟩,
          ⟨"z".toList, 0, 420, 3⟩]⟩
        [rootRow 0, ⟨"/x".toList, [], 420, 1⟩, ⟨"/y".toList, [], 420, 2⟩,
          ⟨"/z".toList, [], 420, 3⟩] 4 0).1 ≠
      .ok ([⟨"x".toList, 0, 420, 1⟩, ⟨"y".toList, 0, 420, 2⟩,
        ⟨"z".toList, 0, 420, 3⟩].drop 1) := by
  decide

/-- C8, amended: for every handle whose cached child list `L` has length `n` and
whose cursor is at `c` with `0 <= c < n`, `Readdir(count)` with `count <= 0`
returns the whole list `L`, the entries before the cursor included, and sets the
cursor to `n`. -/
theorem C8_Readdir_nonpositive (f : File) (db : Table) (now : Nat) (count : Int)
    (L : List FileInfo) (hL : f.children = some L) (h0 : 0 ≤ f.off) (h1 : f.off < L.length)
    (hc : count ≤ 0) :
    f.Readdir db now count = (.ok L, { f with off := L.length }) := by
  rw [Readdir_nonpos f db now count L (loadChildren_cached f db now L hL) h1 hc]
  cases f
  simp only at hL
  subst hL
  rfl

/-- C8, amended, at the cursor 1 of a list of three entries and the count 0. -/
theorem C8_Readdir_nonpositive_witness :
    File.Readdir ⟨"/".toList, 1, some [⟨"x".toList, 0, 420, 1⟩, ⟨"y".toList, 0, 420, 2⟩,
        ⟨"z".toList, 0, 420, 3⟩]⟩ [] 4 0 =
      (.ok [⟨"x".toList, 0, 420, 1⟩, ⟨"y".toList, 0, 420, 2⟩, ⟨"z".toList, 0, 420, 3⟩],
        ⟨"/".toList, 3, some [⟨"x".toList, 0, 420, 1⟩, ⟨"y".toList, 0, 420, 2⟩,
          ⟨"z".toList, 0, 420, 3⟩]⟩) :=
  C8_Readdir_nonpositive ⟨"/".toList, 1, some [⟨"x".toList, 0, 420, 1⟩,
      ⟨"y".toList, 0, 420, 2⟩, ⟨"z".toList, 0, 420, 3⟩]⟩ [] 4 0
    [⟨"x".toList, 0, 420, 1⟩, ⟨"y".toList, 0, 420, 2⟩, ⟨"z".toList, 0, 420, 3⟩]
    rfl (by decide) (by decide) (by decide)

/-- C9: pagination with positive counts.  For a handle at offset 0 whose child
list is `L` (cached, or gathered by the first call), of a length below `2^62`, and
every count `c > 0` within `int`: the successive calls `Readdir(c)` return the
slices `L[0..c)`, `L[c..2c)`, ... in order as long as the slice starts before the end
of `L`, and `EOF` with no entries from then on; each of these slices is not empty
and has at most `c` entries; put together they are exactly `L`; and `Readdir(0)`
on the handle returns all of `L` in one call. -/
theorem C9_Readdir_pagination (db : Table) (now : Nat) (f : File) (L : List FileInfo) (c : Nat)
    (hoff : f.off = 0) (hload : f.loadChildren db now = (none, L))
    (hc : 0 < c) (hc63 : (c : Int) < 2 ^ 63) (hn : L.length < 2 ^ 62) :
    (∀ k, (readdirCalls db now c k f).1 =
        (List.range k).map (fun i =>
          if i * c < L.length then Except.ok ((L.drop (i * c)).take c)
          else Except.error Err.EOF)) ∧
      (∀ i, i * c < L.length →
        (L.drop (i * c)).take c ≠ [] ∧ ((L.drop (i * c)).take c).length ≤ c) ∧
      ((List.range ((L.length + c - 1) / c)).map
        (fun i => (L.drop (i * c)).take c)).flatten = L ∧
      (f.Readdir db now 0).1 = .ok L := by
  refine ⟨?_, ?_, ?_, ?_⟩
  · intro k
    have := readdirCalls_spec db now L c hc hc63 hn k 0 f hload (by simpa using hoff)
    simpa using this
  · intro i hi
    have hlen : ((L.drop (i * c)).take c).length = min c (L.length - i * c) := by simp
    constructor
    · intro h
      rw [h] at hlen
      simp only [List.length_nil] at hlen
      omega
    · omega
  · rw [chunks_flatten]
    apply List.take_of_length_le
    have h1 := Nat.div_add_mod (L.length + c - 1) c
    have h2 := Nat.mod_lt (L.length + c - 1) hc
    rw [Nat.mul_comm] at h1
    omega
  · by_cases h0 : (f.off : Int) < L.length
    · rw [Readdir_nonpos f db now 0 L hload h0 (le_refl _)]
    · rw [Readdir_nonpos_end f db now 0 L hload (by omega) (le_refl _)]
      have : L.length = 0 := by omega
      rw [List.length_eq_zero.mp this]

/-- C9, at the root directory with the children `x`, `y`, `z` and the count 1:
four calls return `x`, `y`, `z` and then `EOF`. -/
theorem C9_Readdir_pagination_witness :
    (readdirCalls [rootRow 0, ⟨"/x".toList, [], 420, 1⟩, ⟨"/y".toList, [], 420, 2⟩,
        ⟨"/z".toList, [], 420, 3⟩] 4 (1 : Nat) 4 ⟨"/".toList, 0, none⟩).1 =
      [.ok [⟨"x".toList, 0, 420, 1⟩], .ok [⟨"y".toList, 0, 420, 2⟩],
        .ok [⟨"z".toList, 0, 420, 3⟩], .error .EOF] :=
  ((C9_Readdir_pagination [rootRow 0, ⟨"/x".toList, [], 420, 1⟩, ⟨"/y".toList, [], 420, 2⟩,
      ⟨"/z".toList, [], 420, 3⟩] 4 ⟨"/".toList, 0, none⟩
    [⟨"x".toList, 0, 420, 1⟩, ⟨"y".toList, 0, 420, 2⟩, ⟨"z".toList, 0, 420, 3⟩] 1
    rfl (by decide) (by decide) (by norm_num) (by norm_num)).1 4).trans (by decide)

/-- C10, at the failing input: in the table made by `Mkdir("/a_")`, `Mkdir("/ab")`
and the creation of the file `/ab/y`, the handle opened on the directory `/a_/`
lists the rows `/ab/` and `/ab/y`, whose names do not start with `/a_/`. -/
theorem C10_Readdir_wildcard :
    run (CreateFS 0) [.mkdir 1 "/a_".toList 493, .mkdir 2 "/ab".toList 493,
        .openFile 3 "/ab/y".toList 64 420] =
      [rootRow 0, ⟨"/a_/".toList, [], 2147484141, 1⟩, ⟨"/ab/".toList, [], 2147484141, 2⟩,
        ⟨"/ab/y".toList, [], 420, 3⟩] ∧
    (OpenFile [rootRow 0, ⟨"/a_/".toList, [], 2147484141, 1⟩, ⟨"/ab/".toList, [], 2147484141, 2⟩,
        ⟨"/ab/y".toList, [], 420, 3⟩] 4 "/a_".toList 0 0).1 = .ok ⟨"/a_/".toList, 0, none⟩ ∧
    (File.Readdir ⟨"/a_/".toList, 0, none⟩
      [rootRow 0, ⟨"/a_/".toList, [], 2147484141, 1⟩, ⟨"/ab/".toList, [], 2147484141, 2⟩,
        ⟨"/ab/y".toList, [], 420, 3⟩] 4 0).1 =
      .ok [⟨"ab".toList, 0, 2147484141, 2⟩, ⟨"y".toList, 0, 420, 3⟩] := by
  decide

/-- C11, at the failing inputs: the file `/f`, made by `OpenFile` with the create
flag, is left by `Rename("/f", "/g/")` as a row named `/g/` without the directory
flag; the directory `/a/`, made by `Mkdir`, is left by `Rename("/a/", "/b")` as a
row named `/b` with the directory flag. -/
theorem C11_Rename_breaks_separator :
    run (CreateFS 0) [.openFile 1 "/f".toList 64 420, .rename 2 "/f".toList "/g/".toList] =
        [rootRow 0, ⟨"/g/".toList, [], 420, 1⟩] ∧
      IsDir 420 = false ∧
      run (CreateFS 0) [.mkdir 1 "/a".toList 493, .rename 2 "/a/".toList "/b".toList] =
        [rootRow 0, ⟨"/b".toList, [], 2147484141, 1⟩] ∧
      IsDir 2147484141 = true := by
  decide

/-- C12, at the failing input: in the table made by `Mkdir("/a")` and the creation
of the file `/f`, `stat` succeeds for `/a` and for `/f`, and `Rename("/a", "/f")`
returns no error and renames the row `/a/` to `/f/`. -/
theorem C12_Rename_collision_missed :
    run (CreateFS 0) [.mkdir 1 "/a".toList 493, .openFile 2 "/f".toList 64 420] =
        [rootRow 0, ⟨"/a/".toList, [], 2147484141, 1⟩, ⟨"/f".toList, [], 420, 2⟩] ∧
      stat [rootRow 0, ⟨"/a/".toList, [], 2147484141, 1⟩, ⟨"/f".toList, [], 420, 2⟩] 3
        "/a".toList = .ok ⟨"a".toList, 0, 2147484141, 1⟩ ∧
      stat [rootRow 0, ⟨"/a/".toList, [], 2147484141, 1⟩, ⟨"/f".toList, [], 420, 2⟩] 3
        "/f".toList = .ok ⟨"f".toList, 0, 420, 2⟩ ∧
      Rename [rootRow 0, ⟨"/a/".toList, [], 2147484141, 1⟩, ⟨"/f".toList, [], 420, 2⟩] 3
        "/a".toList "/f".toList =
        (none, [rootRow 0, ⟨"/f/".toList, [], 2147484141, 1⟩, ⟨"/f".toList, [], 420, 2⟩]) := by
  decide

/-- C13, at the failing input: in the table made by `Mkdir("/a")` and the creation
of the file `/a/f`, `Rename("/a", "/b")` returns no error and renames the row `/a/`
only; afterwards `stat("/b/f")` fails with `ErrNotExist` and the row `/a/f` keeps
its name with the old prefix. -/
theorem C13_Rename_strands_children :
    run (CreateFS 0) [.mkdir 1 "/a".toList 493, .openFile 2 "/a/f".toList 64 420] =
        [rootRow 0, ⟨"/a/".toList, [], 2147484141, 1⟩, ⟨"/a/f".toList, [], 420, 2⟩] ∧
      Rename [rootRow 0, ⟨"/a/".toList, [], 2147484141, 1⟩, ⟨"/a/f".toList, [], 420, 2⟩] 3
        "/a".toList "/b".toList =
        (none, [rootRow 0, ⟨"/b/".toList, [], 2147484141, 1⟩, ⟨"/a/f".toList, [], 420, 2⟩]) ∧
      stat [rootRow 0, ⟨"/b/".toList, [], 2147484141, 1⟩, ⟨"/a/f".toList, [], 420, 2⟩] 4
        "/b/f".toList = .error .ErrNotExist := by
  decide

/-- C14: `Mkdir` on an empty tree creates exactly the chain of prefixes.  For every
directory path `/s1/s2/.../sn/` of `n >= 1` valid segments and every `perm`,
`Mkdir` on a table with the root row only returns no error, and the table
afterwards is the root row followed by the `n` rows `/s1/`, `/s1/s2/`, ...,
`/s1/.../sn/`, each with empty content and the mode `perm.Perm() | ModeDir`; a
second `Mkdir` with the same name then fails with `ErrExist` and leaves the table
unchanged. -/
theorem C14_Mkdir_chain (t now now2 perm perm2 : Nat) (es : List Str)
    (hes : ∀ e ∈ es, validElem e) (hne : es ≠ []) :
    Mkdir [rootRow t] now (flat es ++ ['/']) perm =
        (none, rootRow t :: chainRows now perm es) ∧
      (chainRows now perm es).length = es.length ∧
      (chainRows now perm es).map Row.name =
        (List.range es.length).map (fun k => flat (es.take (k + 1)) ++ ['/']) ∧
      Mkdir (rootRow t :: chainRows now perm es) now2 (flat es ++ ['/']) perm2 =
        (some .ErrExist, rootRow t :: chainRows now perm es) := by
  have hc := clearName_flat_slash hes
  have hsuf := HasSuffix_append_slash (flat es)
  obtain ⟨e, es1, hees⟩ : ∃ e es1, es = e :: es1 := by
    cases es with
    | nil => exact absurd rfl hne
    | cons e es1 => exact ⟨e, es1, rfl⟩
  refine ⟨?_, ?_, ?_, ?_⟩
  · have hsel : selectByName [rootRow t] (flat es ++ ['/']) = none := by
      apply select_none_of_short
      intro r hr
      simp only [List.mem_singleton] at hr
      rw [hr, hees, flat_cons]
      simp [rootRow]
    have hstat := stat_absent now hc hsuf hsel
    have hloop := mkdirLoop_fresh now perm es [] [rootRow t] (by simp) hes (by
      intro r hr
      simp only [List.mem_singleton] at hr
      rw [hr]
      simp [rootRow, flat])
    have hsplit : strings.Split '/' (strings.Trim (flat es ++ ['/']) '/') = es := by
      rw [hees, Trim_flat e es1 (by rw [← hees]; exact hes),
        Split_flat es1 (fun x hx => hes x (by rw [hees]; simp [hx])) e
          (hes e (by rw [hees]; simp)).2.1]
    unfold Mkdir
    simp only [hsuf, Bool.not_true, Bool.false_eq_true, if_false, hc, hstat, hsplit]
    have h0 : (['/'] : Str) = flat [] ++ ['/'] := by simp [flat]
    rw [h0, hloop]
    simp [chainRows]
  · simp [chainRows]
  · simp only [chainRows, List.map_map, inits_tail_eq_take]
    simp [Function.comp_def]
  · have hmem : ∃ r ∈ rootRow t :: chainRows now perm es, r.name = flat es ++ ['/'] := by
      refine ⟨⟨flat es ++ ['/'], [], Perm perm ||| ModeDir, now⟩, ?_, rfl⟩
      simp only [chainRows, List.mem_cons, List.mem_map]
      right
      exact ⟨es, mem_inits_tail es hne, rfl⟩
    obtain ⟨r, hr⟩ := select_some_of_mem hmem
    obtain ⟨fi, hst, _⟩ := stat_of_select now2 hc hr
    exact Mkdir_exists (by simp only [hsuf, Bool.not_true, Bool.false_eq_true, if_false]; exact hc)
      hst

/-- C14, at the path `/a/b/c/`: exactly the three directory rows `/a/`, `/a/b/` and
`/a/b/c/` are created, and a second call fails with `ErrExist`. -/
theorem C14_Mkdir_chain_witness :
    Mkdir [rootRow 0] 1 "/a/b/c/".toList 493 =
        (none, [rootRow 0, ⟨"/a/".toList, [], 2147484141, 1⟩,
          ⟨"/a/b/".toList, [], 2147484141, 1⟩, ⟨"/a/b/c/".toList, [], 2147484141, 1⟩]) ∧
      Mkdir [rootRow 0, ⟨"/a/".toList, [], 2147484141, 1⟩,
          ⟨"/a/b/".toList, [], 2147484141, 1⟩, ⟨"/a/b/c/".toList, [], 2147484141, 1⟩] 2
          "/a/b/c/".toList 493 =
        (some .ErrExist, [rootRow 0, ⟨"/a/".toList, [], 2147484141, 1⟩,
          ⟨"/a/b/".toList, [], 2147484141, 1⟩, ⟨"/a/b/c/".toList, [], 2147484141, 1⟩]) :=
  ⟨(C14_Mkdir_chain 0 1 2 493 493 ["a".toList, "b".toList, "c".toList] (by decide)
      (by decide)).1,
    (C14_Mkdir_chain 0 1 2 493 493 ["a".toList, "b".toList, "c".toList] (by decide)
      (by decide)).2.2.2⟩

/-- C15 as stated fails: in the table made by `Mkdir("/a")` and the creation of the
file `/a/f`, `stat("/a")` succeeds and `OpenFile("/a")` with the create flag
replaces the directory: the table afterwards has the root and the new file `/a`
only.  It is not the prior table with the single entry `/a/` deleted and the new
row inserted: the row `/a/f` is gone as well.  With the name `/a/`, for which
`stat` succeeds too, `OpenFile` with the create flag fails with `ErrInvalid`. -/
theorem C15_OpenFile_replaces_subtree :
    run (CreateFS 0) [.mkdir 1 "/a".toList 493, .openFile 2 "/a/f".toList 64 420] =
        [rootRow 0, ⟨"/a/".toList, [], 2147484141, 1⟩, ⟨"/a/f".toList, [], 420, 2⟩] ∧
      stat [rootRow 0, ⟨"/a/".toList, [], 2147484141, 1⟩, ⟨"/a/f".toList, [], 420, 2⟩] 3
        "/a".toList = .ok ⟨"a".toList, 0, 2147484141, 1⟩ ∧
      OpenFile [rootRow 0, ⟨"/a/".toList, [], 2147484141, 1⟩, ⟨"/a/f".toList, [], 420, 2⟩] 3
        "/a".toList 64 420 =
        (.ok ⟨"/a".toList, 0, none⟩, [rootRow 0, ⟨"/a".toList, [], 420, 3⟩]) ∧
      (OpenFile [rootRow 0, ⟨"/a/".toList, [], 2147484141, 1⟩, ⟨"/a/f".toList, [], 420, 2⟩] 3
        "/a".toList 64 420).2 ≠
        [rootRow 0, ⟨"/a/f".toList, [], 420, 2⟩, ⟨"/a".toList, [], 420, 3⟩] ∧
      OpenFile [rootRow 0, ⟨"/a/".toList, [], 2147484141, 1⟩, ⟨"/a/f".toList, [], 420, 2⟩] 3
        "/a/".toList 64 420 =
        (.error .ErrInvalid,
          [rootRow 0, ⟨"/a/".toList, [], 2147484141, 1⟩, ⟨"/a/f".toList, [], 420, 2⟩]) := by
  decide

/-- C15, amended: for every table in which the row of the parent directory of the
canonical target name exists and a row that is not a directory has the canonical
target name, which has no trailing separator, `OpenFile` with the create flag and
without the exclusive flag returns a handle at offset 0, and the table afterwards
is the prior table without the row of that name, followed by the new row (target
name, empty content, mode `perm.Perm()`); the rows of other names are unchanged. -/
theorem C15_OpenFile_replaces_file (db : Table) (now : Nat) (name n : Str) (flag perm : Nat)
    (r p : Row) (hc : clearName name = .ok n) (hflag : flag &&& O_CREATE ≠ 0)
    (hexcl : flag &&& O_EXCL = 0) (hparent : selectByName db (path.Split n).1 = some p)
    (hs : strings.HasSuffix n ['/'] = false)
    (hrow : selectByName db n = some r) (hfile : IsDir r.mode = false) :
    OpenFile db now name flag perm =
      (.ok ⟨n, 0, none⟩, deleteByName db n ++ [⟨n, [], Perm perm, now⟩]) := by
  have hcn := clearName_idem name n hc
  obtain ⟨hcd, _, _⟩ := clearName_parent name n hc hs
  obtain ⟨fi, hdir, _⟩ := stat_of_select now hcd hparent
  obtain ⟨fi2, hst, hmode⟩ := stat_of_select now hcn hrow
  rw [OpenFile_create_replace hflag hc hs hdir hst (by simp [hexcl]),
    removeAll_file hcn hst (by rw [hmode]; exact hfile)]
  dsimp only
  rw [insertRow_of_absent _ n (Perm perm) now (selectByName_deleteByName db n)]

/-- C15, amended, at the file `/f` with the content `0a` in the root directory:
opening it with the create flag leaves the root row and an empty file `/f`. -/
theorem C15_OpenFile_replaces_file_witness :
    OpenFile [rootRow 0, ⟨"/f".toList, "0a".toList, 420, 1⟩] 2 "/f".toList 64 420 =
      (.ok ⟨"/f".toList, 0, none⟩, [rootRow 0, ⟨"/f".toList, [], 420, 2⟩]) :=
  (C15_OpenFile_replaces_file [rootRow 0, ⟨"/f".toList, "0a".toList, 420, 1⟩] 2 "/f".toList
    "/f".toList 64 420 ⟨"/f".toList, "0a".toList, 420, 1⟩ (rootRow 0)
    (by decide) (by decide) (by decide) (by decide) (by decide) (by decide)
    (by decide)).trans (by decide)

/-- C16: the failure conditions of `OpenFile` with the create flag.  For every
table and every path with the canonical name `n`: the call fails with `ErrInvalid`
when `n` ends with the separator, and when no row exists for the parent directory
of `n`; it fails with `ErrExist` when `n` has no trailing separator, the row of the
parent exists, an entry exists at the target (`stat` succeeds) and the exclusive
flag is set; the table is unchanged in each of these cases.  When `n` has no
trailing separator, the row of the parent exists and nothing exists at the target
(`stat` fails), the call succeeds and adds exactly one row: `n`, empty content,
mode `perm.Perm()`. -/
theorem C16_OpenFile_create_conditions (db : Table) (now : Nat) (name n : Str)
    (flag perm : Nat) (hc : clearName name = .ok n) (hflag : flag &&& O_CREATE ≠ 0) :
    (strings.HasSuffix n ['/'] = true →
        OpenFile db now name flag perm = (.error .ErrInvalid, db)) ∧
      (selectByName db (path.Split n).1 = none →
        OpenFile db now name flag perm = (.error .ErrInvalid, db)) ∧
      (∀ p fi, strings.HasSuffix n ['/'] = false →
        selectByName db (path.Split n).1 = some p → stat db now n = .ok fi →
        flag &&& O_EXCL ≠ 0 → OpenFile db now name flag perm = (.error .ErrExist, db)) ∧
      (∀ p e, strings.HasSuffix n ['/'] = false →
        selectByName db (path.Split n).1 = some p → stat db now n = .error e →
        OpenFile db now name flag perm =
          (.ok ⟨n, 0, none⟩, db ++ [⟨n, [], Perm perm, now⟩])) := by
  refine ⟨fun hs => OpenFile_create_suffix hflag hc hs, ?_, ?_, ?_⟩
  · intro hnone
    by_cases hs : strings.HasSuffix n ['/'] = true
    · exact OpenFile_create_suffix hflag hc hs
    · have hs1 : strings.HasSuffix n ['/'] = false := by simpa using hs
      obtain ⟨hcd, hsd, _⟩ := clearName_parent name n hc hs1
      exact OpenFile_create_no_parent hflag hc hs1 (stat_absent now hcd hsd hnone)
  · intro p fi hs hparent hst hexcl
    obtain ⟨hcd, _, _⟩ := clearName_parent name n hc hs
    obtain ⟨fi0, hdir, _⟩ := stat_of_select now hcd hparent
    exact OpenFile_create_excl hflag hc hs hdir hst hexcl
  · intro p e hs hparent hst
    obtain ⟨hcd, _, _⟩ := clearName_parent name n hc hs
    obtain ⟨fi0, hdir, _⟩ := stat_of_select now hcd hparent
    exact OpenFile_create_new hflag hc hs hdir hst

/-- C16, at the freshly formatted table: `/d/` is refused for its trailing
separator, `/a/f` for its missing parent, and `/f` is created. -/
theorem C16_OpenFile_create_conditions_witness :
    OpenFile (CreateFS 0) 1 "/d/".toList 64 420 = (.error .ErrInvalid, CreateFS 0) ∧
      OpenFile (CreateFS 0) 1 "/a/f".toList 64 420 = (.error .ErrInvalid, CreateFS 0) ∧
      OpenFile (CreateFS 0) 1 "/f".toList 64 420 =
        (.ok ⟨"/f".toList, 0, none⟩, CreateFS 0 ++ [⟨"/f".toList, [], Perm 420, 1⟩]) :=
  ⟨(C16_OpenFile_create_conditions (CreateFS 0) 1 "/d/".toList "/d/".toList 64 420
      (by decide) (by decide)).1 (by decide),
    (C16_OpenFile_create_conditions (CreateFS 0) 1 "/a/f".toList "/a/f".toList 64 420
      (by decide) (by decide)).2.1 (by decide),
    (C16_OpenFile_create_conditions (CreateFS 0) 1 "/f".toList "/f".toList 64 420
      (by decide) (by decide)).2.2.2 (rootRow 0) .ErrNotExist (by decide) (by decide)
      (by decide)⟩

/-- C17: the lookup rule of `stat`.  For every table and every path on which
`clearName` succeeds with the canonical form `n`: if a row named `n` exists, `stat`
returns the entry of that row; otherwise, if `n` has no trailing separator and a
row named `n` followed by the separator exists, `stat` returns the entry of that
row; otherwise `stat` fails with `ErrNotExist`.  The entry has half the length of
the stored content as size, the stored mode as mode, and the last segment of the
name of the row as name (`/` for the root).  `stat` only queries the table: it is a
function of the table and returns no table. -/
theorem C17_stat_lookup (db : Table) (now : Nat) (p n : Str) (hc : clearName p = .ok n) :
    (∀ r, selectByName db n = some r → ∃ fi, stat db now p = .ok fi ∧ describes fi r) ∧
      (∀ r, selectByName db n = none → strings.HasSuffix n ['/'] = false →
        selectByName db (n ++ ['/']) = some r →
        ∃ fi, stat db now p = .ok fi ∧ describes fi r) ∧
      (selectByName db n = none →
        (strings.HasSuffix n ['/'] = true ∨ selectByName db (n ++ ['/']) = none) →
        stat db now p = .error .ErrNotExist) := by
  refine ⟨?_, ?_, ?_⟩
  · intro r hr
    exact stat_describes hc (by unfold statRow; rw [hr])
  · intro r hnone hs hr
    exact stat_describes hc (by unfold statRow; rw [hnone]; simp [hs, hr])
  · intro hnone hor
    have hrow : statRow db n = none := by
      unfold statRow
      rw [hnone]
      rcases hor with h | h
      · simp [h]
      · simp [h]
    unfold stat
    rw [hc]
    dsimp only
    rw [hrow]

/-- C17, at the directory `/a/` looked up by its bare name `/a`: the entry has the
name `a` and the stored mode. -/
theorem C17_stat_lookup_witness :
    ∃ fi, stat [rootRow 0, ⟨"/a/".toList, [], 2147484141, 1⟩] 2 "/a".toList = .ok fi ∧
      describes fi ⟨"/a/".toList, [], 2147484141, 1⟩ :=
  (C17_stat_lookup [rootRow 0, ⟨"/a/".toList, [], 2147484141, 1⟩] 2 "/a".toList "/a".toList
    (by decide)).2.1 ⟨"/a/".toList, [], 2147484141, 1⟩ (by decide) (by decide) (by decide)

/-- C18, at the failing input: `Mkdir` with the name `/a\b` makes the directory row
`/a\b/`; then `RemoveAll` with the name `/a\b/` returns no error and leaves the
table as it was, the row of the directory included. -/
theorem C18_RemoveAll_backslash :
    run (CreateFS 0) [.mkdir 1 ['/', 'a', '\\', 'b'] 493] =
        [rootRow 0, ⟨['/', 'a', '\\', 'b', '/'], [], 2147484141, 1⟩] ∧
      stat [rootRow 0, ⟨['/', 'a', '\\', 'b', '/'], [], 2147484141, 1⟩] 2
        ['/', 'a', '\\', 'b', '/'] = .ok ⟨['a', '\\', 'b'], 0, 2147484141, 1⟩ ∧
      RemoveAll [rootRow 0, ⟨['/', 'a', '\\', 'b', '/'], [], 2147484141, 1⟩] 2
        ['/', 'a', '\\', 'b', '/'] =
        (none, [rootRow 0, ⟨['/', 'a', '\\', 'b', '/'], [], 2147484141, 1⟩]) := by
  decide

/-- C19: creation preserves parent existence.  A table is parent-closed when it
has the root row and, for every other row, the row of its parent directory (the
name with its last segment removed, ending with the separator).  For every
parent-closed table and for arbitrary name, flags and perm, the table after a call
of `Mkdir` and the table after a call of `OpenFile` (with or without the create
flag, whether the call succeeds or fails) is parent-closed again: no file or
directory row is inserted under a parent that does not exist, and the removal that
`OpenFile` does before it replaces a name takes no parent from a row that
stays. -/
theorem C19_creation_parent_closed (db : Table) (now : Nat) (name : Str) (flag perm : Nat)
    (h : parentClosed db = true) :
    parentClosed (Mkdir db now name perm).2 = true ∧
      parentClosed (OpenFile db now name flag perm).2 = true :=
  ⟨parentClosed_Mkdir db now name perm h, parentClosed_OpenFile db now name flag perm h⟩

/-- C19, at the table with the rows `/`, `/a/` and `/a/f`: `Mkdir` of `/a/b/c` and
`OpenFile` of `/a/g` with the create flag leave it parent-closed. -/
theorem C19_creation_parent_closed_witness :
    parentClosed [rootRow 0, ⟨"/a/".toList, [], 2147484141, 1⟩,
        ⟨"/a/f".toList, "0a".toList, 420, 2⟩] = true ∧
      parentClosed (Mkdir [rootRow 0, ⟨"/a/".toList, [], 2147484141, 1⟩,
        ⟨"/a/f".toList, "0a".toList, 420, 2⟩] 3 "/a/b/c".toList 493).2 = true ∧
      parentClosed (OpenFile [rootRow 0, ⟨"/a/".toList, [], 2147484141, 1⟩,
        ⟨"/a/f".toList, "0a".toList, 420, 2⟩] 3 "/a/g".toList 64 420).2 = true :=
  ⟨by decide, C19_creation_parent_closed _ 3 "/a/b/c".toList 64 493 (by decide) |>.1,
    C19_creation_parent_closed _ 3 "/a/g".toList 64 420 (by decide) |>.2⟩

/-- C20 as stated fails: in the table made by the creation of the file `/f` and the
write of the byte `0a`, the content of every row is well-formed, and `Seek` to the
offset `2^63 - 1` gives a handle with a non-negative offset on which `Read` with a
buffer of one byte fails in `hex.DecodeString`: the product `off*2` wraps to `-2`,
and `substr(content, -1, 2)` is the single last character of the content. -/
theorem C20_Read_offset_wraps :
    run (CreateFS 0) [.openFile 1 "/f".toList 64 420, .write ⟨"/f".toList, 0, none⟩ [10]] =
        [rootRow 0, ⟨"/f".toList, "0a".toList, 420, 1⟩] ∧
      File.Seek ⟨"/f".toList, 0, none⟩ [rootRow 0, ⟨"/f".toList, "0a".toList, 420, 1⟩] 2
        9223372036854775807 0 =
        (.ok 9223372036854775807, ⟨"/f".toList, 9223372036854775807, none⟩) ∧
      File.Read ⟨"/f".toList, 9223372036854775807, none⟩
        [rootRow 0, ⟨"/f".toList, "0a".toList, 420, 1⟩] 1 =
        ((0, some .hexError), [], ⟨"/f".toList, 9223372036854775807, none⟩) := by
  decide

/-- C20, amended: in every table reached from the freshly formatted table by a
finite sequence of `Mkdir`, `OpenFile`, `RemoveAll`, `Rename` and `Write` calls (on
any handles), the content of every row is a string of even length of lowercase
hexadecimal digits; consequently `File.Read` on a handle with an offset from 0 to
below `2^62` does not fail with a hex decoding error and returns a count, and
copies a number of bytes, of at most the length of the buffer. -/
theorem C20_hex_content (now : Nat) (ops : List Op) :
    hexTable (run (CreateFS now) ops) = true ∧
      ∀ (f : File) (len : Nat), 0 ≤ f.off → f.off < 2 ^ 62 →
        (f.Read (run (CreateFS now) ops) len).1.2 ≠ some .hexError ∧
          (f.Read (run (CreateFS now) ops) len).1.1 ≤ len ∧
          (f.Read (run (CreateFS now) ops) len).2.1.length ≤ len := by
  have h := hexTable_run ops (CreateFS now) (by simp [hexTable, CreateFS, rootRow, isHexContent])
  exact ⟨h, fun f len h0 h1 => Read_hexTable f _ len h h0 h1⟩

/-- C20, amended, at the file `/f` with the bytes `0a 0b`, truncated at offset 1 by
the write of `ff`: the read of two bytes at offset 0 does not fail in the
decoding. -/
theorem C20_hex_content_witness :
    (File.Read ⟨"/f".toList, 0, none⟩
      (run (CreateFS 0) [.openFile 1 "/f".toList 64 420,
        .write ⟨"/f".toList, 0, none⟩ [10, 11], .write ⟨"/f".toList, 1, none⟩ [255]])
      2).1.2 ≠ some .hexError :=
  ((C20_hex_content 0 [.openFile 1 "/f".toList 64 420,
    .write ⟨"/f".toList, 0, none⟩ [10, 11], .write ⟨"/f".toList, 1, none⟩ [255]]).2
    ⟨"/f".toList, 0, none⟩ 2 (by decide) (by norm_num)).1

end Davfs
